import Mathlib

/-! Verification of `slices` (go-pipeline)

A shallow embedding of `src/slices/slices.go` and theorems about it.

Modelling conventions
* A Go slice value is `Slice α`: either the `nil` slice or a non-nil slice
  holding a list of elements.  `len`, `range` and indexing only see the
  element list; `append` to a nil slice yields a non-nil slice.
* A Go map value is `GoMap K V`: either the nil map or a non-nil map holding an
  association list of its entries (iteration order is not observable by this
  package, so the list order carries no meaning).
* The constraint `comparable` is the class `Comparable`: the `==` of the type,
  which need not be reflexive (`NaN != NaN`) and may identify distinct values
  (`0 == -0`), and the test whether a value can be hashed as a map key, which
  fails for an interface value holding a slice, map or function; map reads and
  writes with such a key panic.
* `error` is `Option ε`, with `none` the nil error.
* The zero value of a type is given by the class `ZeroValue`.
* Go `int` lengths and indices are natural numbers: every length that occurs is
  the length of a slice, so no negative value or overflow can arise.
* A run-time panic is the `error` side of `Except Panic`; it is used where the
  source executes an operation whose safety is not evident from a guard on the
  same line (the index accesses and `slices.Min` in `Zip`, the map operations
  in `Dedupe` and `ToMap`).
* `for _, e := range i { ... }` is a recursion over the element list of `i`
  carrying the loop's variables as arguments.
-/

namespace Slices

/-! ## Go values -/

/-- Go slice value: the nil slice, or a non-nil slice with its elements. -/
inductive Slice (α : Type) where
  | nil : Slice α
  | mk : List α → Slice α
deriving DecidableEq, Repr

/-- Elements of a slice in index order; the nil slice has none. -/
def Slice.toList {α : Type} : Slice α → List α
  | Slice.nil => []
  | Slice.mk l => l

/-- Go `len(s)`. -/
def Slice.len {α : Type} (s : Slice α) : Nat := s.toList.length

/-- Go `s == nil`. -/
def Slice.isNil {α : Type} : Slice α → Bool
  | Slice.nil => true
  | Slice.mk _ => false

/-- Go `append(s, e)`: the result is never nil. -/
def Slice.append {α : Type} (s : Slice α) (e : α) : Slice α :=
  Slice.mk (s.toList ++ [e])

/-- Go `append(s, es...)`: appending no element returns `s` itself
(a nil `s` stays nil). -/
def Slice.appendAll {α : Type} (s : Slice α) (es : Slice α) : Slice α :=
  match es.toList with
  | [] => s
  | x :: xs => Slice.mk (s.toList ++ x :: xs)

/-- Zero value of a Go type. -/
class ZeroValue (α : Type) where
  zero : α

instance : ZeroValue Int := ⟨0⟩
instance : ZeroValue Nat := ⟨0⟩
instance : ZeroValue Bool := ⟨false⟩
instance : ZeroValue String := ⟨""⟩
instance {α : Type} : ZeroValue (Slice α) := ⟨Slice.nil⟩

/-- Go `make([]α, n)`: a non-nil slice of `n` zero values. -/
def Slice.make {α : Type} [ZeroValue α] (n : Nat) : Slice α :=
  Slice.mk (List.replicate n ZeroValue.zero)

/-- Run-time panics that the modelled operations can raise. -/
inductive Panic where
  | minEmptyList
  | indexOutOfRange
  | unhashableKey
deriving DecidableEq, Repr

/-- Go `s[i]` as an expression: panics when `i` is not below `len(s)`. -/
def Slice.index {α : Type} (s : Slice α) (i : Nat) : Except Panic α :=
  match s.toList.get? i with
  | some v => Except.ok v
  | none => Except.error Panic.indexOutOfRange

/-- Go `s[i] = v`: panics when `i` is not below `len(s)`; otherwise the slice
with element `i` replaced (a slice with an element is never nil). -/
def Slice.setIndex {α : Type} (s : Slice α) (i : Nat) (v : α) : Except Panic (Slice α) :=
  if i < s.len then Except.ok (Slice.mk (s.toList.set i v))
  else Except.error Panic.indexOutOfRange

/-- Go map value: the nil map, or a non-nil map with its entries. -/
inductive GoMap (K V : Type) where
  | nil : GoMap K V
  | mk : List (K × V) → GoMap K V
deriving DecidableEq, Repr

/-- Entries of a map; the nil map has none. -/
def GoMap.entries {K V : Type} : GoMap K V → List (K × V)
  | GoMap.nil => []
  | GoMap.mk l => l

/-- Go `len(m)`. -/
def GoMap.len {K V : Type} (m : GoMap K V) : Nat := m.entries.length

/-- Go `m == nil`. -/
def GoMap.isNil {K V : Type} : GoMap K V → Bool
  | GoMap.nil => true
  | GoMap.mk _ => false

/-- Go's constraint `comparable` on a type: `eq` is the `==` of the type on
values that can be map keys, and `hashable` tells whether a value can be hashed
as a map key (it cannot when it is an interface value whose dynamic type is a
slice, map or function). -/
class Comparable (E : Type) where
  eq : E → E → Bool
  hashable : E → Bool

instance : Comparable Int := ⟨fun a b => decide (a = b), fun _ => true⟩
instance : Comparable Nat := ⟨fun a b => decide (a = b), fun _ => true⟩
instance : Comparable Bool := ⟨fun a b => decide (a = b), fun _ => true⟩
instance : Comparable String := ⟨fun a b => decide (a = b), fun _ => true⟩

/-- Values of Go's `float64` that `==` treats specially, and the others: NaN,
negative zero, and the float with the integer value `n` (`num 0` is positive
zero). -/
inductive F64 where
  | nan : F64
  | negZero : F64
  | num : Int → F64
deriving DecidableEq, Repr

/-- Go `==` on `float64`: NaN equals nothing, the two zeros are equal. -/
def F64.eq : F64 → F64 → Bool
  | F64.nan, _ => false
  | _, F64.nan => false
  | F64.negZero, F64.negZero => true
  | F64.negZero, F64.num n => decide (n = 0)
  | F64.num n, F64.negZero => decide (n = 0)
  | F64.num a, F64.num b => decide (a = b)

instance : Comparable F64 := ⟨F64.eq, fun _ => true⟩

/-- Go `math.Signbit` on `float64`. -/
def F64.signbit : F64 → Bool
  | F64.nan => false
  | F64.negZero => true
  | F64.num n => decide (n < 0)

/-- Values of Go's `any` that hold an `int` or a `[]int`. -/
inductive AnyVal where
  | int : Int → AnyVal
  | ints : List Int → AnyVal
deriving DecidableEq, Repr

/-- Go `==` on `any` for values that can be map keys: equal dynamic type and
equal value. -/
def AnyVal.eq : AnyVal → AnyVal → Bool
  | AnyVal.int a, AnyVal.int b => decide (a = b)
  | _, _ => false

/-- An `any` holding a slice cannot be hashed. -/
def AnyVal.hashable : AnyVal → Bool
  | AnyVal.int _ => true
  | AnyVal.ints _ => false

instance : Comparable AnyVal := ⟨AnyVal.eq, AnyVal.hashable⟩

/-- Value found for key `k` among the entries of a map: the value of the entry
whose key is `==` to `k`, if there is one. -/
def entriesFind {K V : Type} [Comparable K] (m : List (K × V)) (k : K) : Option V :=
  (m.find? (fun p => Comparable.eq p.1 k)).map Prod.snd

/-- Entries of a map after storing `v` under `k`: the entry whose key is `==`
to `k`, if any, is replaced, and otherwise an entry is added. -/
def entriesPut {K V : Type} [Comparable K] (m : List (K × V)) (k : K) (v : V) : List (K × V) :=
  (k, v) :: m.filter (fun p => !Comparable.eq p.1 k)

/-- Go `v, ok := m[k]` on the entries of a map, as `some v` when `ok` and `none`
otherwise; panics when `k` cannot be hashed. -/
def entriesGet {K V : Type} [Comparable K] (m : List (K × V)) (k : K) :
    Except Panic (Option V) :=
  if Comparable.hashable k then Except.ok (entriesFind m k)
  else Except.error Panic.unhashableKey

/-- Go `m[k] = v` on the entries of a non-nil map; panics when `k` cannot be
hashed. -/
def entriesSet {K V : Type} [Comparable K] (m : List (K × V)) (k : K) (v : V) :
    Except Panic (List (K × V)) :=
  if Comparable.hashable k then Except.ok (entriesPut m k v)
  else Except.error Panic.unhashableKey

/-- Go `v, ok := m[k]`, as `some v` when `ok` and `none` otherwise; panics when
`k` cannot be hashed, also on a nil or empty map. -/
def GoMap.get {K V : Type} [Comparable K] (m : GoMap K V) (k : K) : Except Panic (Option V) :=
  entriesGet m.entries k

/-! ## The package functions -/

/-- Loop of `Dedupe` (source lines 8-13): `m` holds the entries of the non-nil
map made by the literal on line 7, `o` the result built so far. -/
def DedupeLoop {E : Type} [Comparable E] :
    List E → List (E × Unit) → Slice E → Except Panic (Slice E)
  | [], _, o => Except.ok o
  | e :: rest, m, o => do
    let r ← entriesGet m e
    if r.isSome then DedupeLoop rest m o
    else do
      let m1 ← entriesSet m e ()
      DedupeLoop rest m1 (o.append e)

/-- Go `Dedupe` (source lines 6-15). -/
def Dedupe {E : Type} [Comparable E] (i : Slice E) : Except Panic (Slice E) :=
  DedupeLoop i.toList [] Slice.nil

/-- Loop of `Filter` (source lines 19-23). -/
def FilterLoop {E : Type} (f : E → Bool) : List E → Slice E → Slice E
  | [], o => o
  | e :: rest, o => if f e then FilterLoop f rest (o.append e) else FilterLoop f rest o

/-- Go `Filter` (source lines 18-25). -/
def Filter {E : Type} (i : Slice E) (f : E → Bool) : Slice E :=
  FilterLoop f i.toList Slice.nil

/-- Loop of `Flatten` (source lines 29-31). -/
def FlattenLoop {E : Type} : List (Slice E) → Slice E → Slice E
  | [], o => o
  | e :: rest, o => FlattenLoop rest (o.appendAll e)

/-- Go `Flatten` (source lines 28-33). -/
def Flatten {E : Type} (i : Slice (Slice E)) : Slice E :=
  FlattenLoop i.toList Slice.nil

/-- Go `Last` (source lines 36-41): the index `l-1` is read under the guard
`l > 0`, which is what makes the access in bounds. -/
def Last {E : Type} [ZeroValue E] (i : Slice E) : E :=
  if h : 0 < i.len then i.toList.get ⟨i.len - 1, Nat.sub_lt h Nat.one_pos⟩
  else ZeroValue.zero

/-- Loop of `Reduce` (source lines 45-47). -/
def ReduceLoop {O E : Type} (f : O → E → O) : List E → O → O
  | [], o => o
  | e :: rest, o => ReduceLoop f rest (f o e)

/-- Go `Reduce` (source lines 44-49): the named result starts as the zero
value of `O`. -/
def Reduce {O E : Type} [ZeroValue O] (i : Slice E) (f : O → E → O) : O :=
  ReduceLoop f i.toList ZeroValue.zero

/-- Loop of `ToMap` (source lines 54-57) on the entries of the non-nil map made
on line 53. -/
def ToMapLoop {K V E : Type} [Comparable K] (f : E → K × V) :
    List E → List (K × V) → Except Panic (List (K × V))
  | [], o => Except.ok o
  | e :: rest, o => do
    let o1 ← entriesSet o (f e).1 (f e).2
    ToMapLoop f rest o1

/-- Go `ToMap` (source lines 52-59). -/
def ToMap {K V E : Type} [Comparable K] (i : Slice E) (f : E → K × V) :
    Except Panic (GoMap K V) := do
  let o ← ToMapLoop f i.toList []
  Except.ok (GoMap.mk o)

/-- Loop of `Transform` (source lines 63-65). -/
def TransformLoop {E1 E2 : Type} (f : E1 → E2) : List E1 → Slice E2 → Slice E2
  | [], o => o
  | e :: rest, o => TransformLoop f rest (o.append (f e))

/-- Go `Transform` (source lines 62-67). -/
def Transform {E1 E2 : Type} (i : Slice E1) (f : E1 → E2) : Slice E2 :=
  TransformLoop f i.toList Slice.nil

/-- Loop of `TransformErr` (source lines 72-78) for a mapping function without
side effects: `f` returns its value and its error. -/
def TransformErrLoop {E1 E2 ε : Type} (f : E1 → E2 × Option ε) :
    List E1 → Slice E2 → Slice E2 × Option ε
  | [], o => (o, none)
  | ei :: rest, o =>
    match f ei with
    | (_, some err) => (Slice.nil, some err)
    | (eo, none) => TransformErrLoop f rest (o.append eo)

/-- Go `TransformErr` (source lines 71-80). -/
def TransformErr {E1 E2 ε : Type} (i : Slice E1) (f : E1 → E2 × Option ε) :
    Slice E2 × Option ε :=
  TransformErrLoop f i.toList Slice.nil

/-- Loop of `TransformErr` for a mapping function with side effects: the
function reads and updates a state `σ` at each call, and the loop returns the
state left by the calls it made. -/
def TransformErrLoopS {E1 E2 ε σ : Type} (f : σ → E1 → (E2 × Option ε) × σ) :
    List E1 → Slice E2 → σ → (Slice E2 × Option ε) × σ
  | [], o, s => ((o, none), s)
  | ei :: rest, o, s =>
    match f s ei with
    | ((_, some err), s1) => ((Slice.nil, some err), s1)
    | ((eo, none), s1) => TransformErrLoopS f rest (o.append eo) s1

/-- Go `TransformErr` with a side-effecting mapping function, run from state
`s`. -/
def TransformErrS {E1 E2 ε σ : Type} (i : Slice E1) (f : σ → E1 → (E2 × Option ε) × σ)
    (s : σ) : (Slice E2 × Option ε) × σ :=
  TransformErrLoopS f i.toList Slice.nil s

/-- Mapping function that behaves like `f` and records each argument it is
called with at the end of a call log. -/
def recordCalls {E1 E2 ε : Type} (f : E1 → E2 × Option ε) :
    List E1 → E1 → (E2 × Option ε) × List E1 :=
  fun log e => (f e, log ++ [e])

/-- Go standard library `slices.Min` on lengths: panics on an empty slice,
otherwise folds `min` from the first element over the rest. -/
def slicesMin (x : Slice Nat) : Except Panic Nat :=
  match x.toList with
  | [] => Except.error Panic.minEmptyList
  | m :: rest => Except.ok (rest.foldl min m)

/-- Inner loop of `Zip` (source lines 88-90): `o[idx][ii] = is[idx]` for each
input `is` at position `ii`, starting at position `ii`. -/
def ZipInner {E : Type} (idx : Nat) :
    List (Slice E) → Nat → Slice (Slice E) → Except Panic (Slice (Slice E))
  | [], _, o => Except.ok o
  | is :: rest, ii, o => do
    let v ← is.index idx
    let row ← o.index idx
    let row1 ← row.setIndex ii v
    let o1 ← o.setIndex idx row1
    ZipInner idx rest (ii + 1) o1

/-- Outer loop of `Zip` (source lines 86-91), run for the `n` indices
`idx, idx+1, ..., idx+n-1`; `Zip` runs it from `idx = 0` with `n = len(o)`,
which the loop body does not change. -/
def ZipOuter {E : Type} [ZeroValue E] (i : Slice (Slice E)) :
    Nat → Nat → Slice (Slice E) → Except Panic (Slice (Slice E))
  | 0, _, o => Except.ok o
  | n + 1, idx, o => do
    let o1 ← o.setIndex idx (Slice.make i.len)
    let o2 ← ZipInner idx i.toList 0 o1
    ZipOuter i n (idx + 1) o2

/-- Go `Zip` (source lines 84-93); `i` is the slice of the variadic
arguments. -/
def Zip {E : Type} [ZeroValue E] (i : Slice (Slice E)) : Except Panic (Slice (Slice E)) := do
  let n ← slicesMin (Transform i (fun s => s.len))
  let o : Slice (Slice E) := Slice.make n
  ZipOuter i o.len 0 o

/-! ## Auxiliary definitions used in proofs -/

/-- Elements of `l` that are `==` to no element of `seen` and to no element
that this function kept earlier, in order: the list that the loop of `Dedupe`
appends when `seen` holds the values already emitted. -/
def firstOcc {E : Type} [Comparable E] : List E → List E → List E
  | [], _ => []
  | e :: rest, seen =>
    if seen.any (fun s => Comparable.eq s e) then firstOcc rest seen
    else e :: firstOcc rest (seen ++ [e])

/-- Elements of `l` not in `seen` and not earlier in `l`, in order. -/
def firstOccMem {E : Type} [DecidableEq E] : List E → List E → List E
  | [], _ => []
  | e :: rest, seen =>
    if e ∈ seen then firstOccMem rest seen else e :: firstOccMem rest (seen ++ [e])

/-- Entries that the loop of `ToMap` builds from the entries `o` when no key
panics. -/
def toMapEntries {K V E : Type} [Comparable K] (f : E → K × V) :
    List E → List (K × V) → List (K × V)
  | [], o => o
  | e :: rest, o => toMapEntries f rest (entriesPut o (f e).1 (f e).2)

/-- Mapping function of the specification's example: fails on negative numbers
and otherwise returns its argument. -/
def failOnNegative : Int → Int × Option String :=
  fun n => if n < 0 then (0, some "negative") else (n, none)

/-- A slice value that is not a non-nil slice of length zero: every slice that
the loops of this package build from a nil result by `append` is of this
kind. -/
def Slice.Canon {α : Type} (s : Slice α) : Prop := s.toList = [] → s = Slice.nil

/-! ## Basic facts about slices -/

@[simp] theorem Slice.toList_nil {α : Type} : (Slice.nil : Slice α).toList = [] := rfl

@[simp] theorem Slice.toList_mk {α : Type} (l : List α) : (Slice.mk l).toList = l := rfl

@[simp] theorem Slice.toList_append {α : Type} (s : Slice α) (e : α) :
    (s.append e).toList = s.toList ++ [e] := rfl

@[simp] theorem Slice.len_mk {α : Type} (l : List α) : (Slice.mk l).len = l.length := rfl

@[simp] theorem Slice.len_nil {α : Type} : (Slice.nil : Slice α).len = 0 := rfl

/-! ## Transform and TransformErr -/

theorem TransformLoop_toList {E1 E2 : Type} (f : E1 → E2) (l : List E1) :
    ∀ o : Slice E2, (TransformLoop f l o).toList = o.toList ++ l.map f := by
  induction l with
  | nil => intro o; simp [TransformLoop]
  | cons e rest ih => intro o; simp [TransformLoop, ih]

theorem Transform_toList {E1 E2 : Type} (i : Slice E1) (f : E1 → E2) :
    (Transform i f).toList = i.toList.map f := by
  simp [Transform, TransformLoop_toList]

theorem Transform_len {E1 E2 : Type} (i : Slice E1) (f : E1 → E2) :
    (Transform i f).len = i.len := by
  simp [Slice.len, Transform_toList]

theorem Slice.index_eq_ok {α : Type} (s : Slice α) (i : Nat) (h : i < s.len) :
    s.index i = Except.ok (s.toList.get ⟨i, h⟩) := by
  unfold Slice.index
  rw [List.get?_eq_get h]

theorem TransformErrLoop_ok {E1 E2 ε : Type} (f : E1 → E2 × Option ε) (l : List E1) :
    ∀ o : Slice E2, (∀ x ∈ l, (f x).2 = none) →
      TransformErrLoop f l o = (TransformLoop (fun x => (f x).1) l o, none) := by
  induction l with
  | nil => intro o _; rfl
  | cons e rest ih =>
    intro o h
    have he : (f e).2 = none := h e (List.mem_cons_self e rest)
    have hrest : ∀ x ∈ rest, (f x).2 = none := fun x hx => h x (List.mem_cons_of_mem e hx)
    rw [TransformErrLoop, TransformLoop]
    rcases hfe : f e with ⟨v, err⟩
    rw [hfe] at he
    simp only at he
    subst he
    exact ih (o.append v) hrest

theorem TransformErrLoop_fail {E1 E2 ε : Type} (f : E1 → E2 × Option ε) (l : List E1) :
    ∀ (o : Slice E2) (k : Nat) (x : E1) (err : ε),
      l.get? k = some x → (f x).2 = some err →
      (∀ j y, j < k → l.get? j = some y → (f y).2 = none) →
      TransformErrLoop f l o = (Slice.nil, some err) := by
  induction l with
  | nil => intro o k x err hk; simp at hk
  | cons e rest ih =>
    intro o k x err hk hx hbefore
    rw [TransformErrLoop]
    cases k with
    | zero =>
      simp only [List.get?_cons_zero, Option.some.injEq] at hk
      subst hk
      rcases hfe : f e with ⟨v, err1⟩
      rw [hfe] at hx
      simp only at hx
      subst hx
      rfl
    | succ k =>
      have he : (f e).2 = none := hbefore 0 e (Nat.succ_pos k) rfl
      rcases hfe : f e with ⟨v, err1⟩
      rw [hfe] at he
      simp only at he
      subst he
      simp only [List.get?_cons_succ] at hk
      exact ih (o.append v) k x err hk hx
        (fun j y hj hy => hbefore (j + 1) y (Nat.succ_lt_succ hj) (by simpa using hy))

theorem TransformErrLoopS_recordCalls_fst {E1 E2 ε : Type} (f : E1 → E2 × Option ε)
    (l : List E1) :
    ∀ (o : Slice E2) (log : List E1),
      (TransformErrLoopS (recordCalls f) l o log).1 = TransformErrLoop f l o := by
  induction l with
  | nil => intro o log; rfl
  | cons e rest ih =>
    intro o log
    rw [TransformErrLoopS, TransformErrLoop]
    simp only [recordCalls]
    rcases hfe : f e with ⟨v, err⟩
    cases err with
    | none => exact ih (o.append v) (log ++ [e])
    | some err => rfl

theorem TransformErrLoopS_recordCalls_fail {E1 E2 ε : Type} (f : E1 → E2 × Option ε)
    (l : List E1) :
    ∀ (o : Slice E2) (log : List E1) (k : Nat) (x : E1) (err : ε),
      l.get? k = some x → (f x).2 = some err →
      (∀ j y, j < k → l.get? j = some y → (f y).2 = none) →
      (TransformErrLoopS (recordCalls f) l o log).2 = log ++ l.take (k + 1) := by
  induction l with
  | nil => intro o log k x err hk; simp at hk
  | cons e rest ih =>
    intro o log k x err hk hx hbefore
    rw [TransformErrLoopS]
    simp only [recordCalls]
    cases k with
    | zero =>
      simp only [List.get?_cons_zero, Option.some.injEq] at hk
      subst hk
      rcases hfe : f e with ⟨v, err1⟩
      rw [hfe] at hx
      simp only at hx
      subst hx
      simp
    | succ k =>
      have he : (f e).2 = none := hbefore 0 e (Nat.succ_pos k) rfl
      rcases hfe : f e with ⟨v, err1⟩
      rw [hfe] at he
      simp only at he
      subst he
      simp only [List.get?_cons_succ] at hk
      have := ih (o.append v) (log ++ [e]) k x err hk hx
        (fun j y hj hy => hbefore (j + 1) y (Nat.succ_lt_succ hj) (by simpa using hy))
      simpa using this

/-- C2: when index `k` is the first at which `f` returns a non-nil error,
`TransformErr(S, f)` returns the nil slice together with exactly that error, so
none of the values mapped before index `k` is in the result. -/
theorem TransformErr_first_failure {E1 E2 ε : Type} (S : Slice E1) (f : E1 → E2 × Option ε)
    (k : Nat) (hk : k < S.len) (err : ε)
    (hfail : (f (S.toList.get ⟨k, hk⟩)).2 = some err)
    (hfirst : ∀ j (hj : j < k), (f (S.toList.get ⟨j, Nat.lt_trans hj hk⟩)).2 = none) :
    TransformErr S f = (Slice.nil, some err)
    ∧ (TransformErr S f).1.isNil = true
    ∧ (TransformErr S f).1.len = 0
    ∧ (TransformErr S f).2 = (f (S.toList.get ⟨k, hk⟩)).2 := by
  have h : TransformErr S f = (Slice.nil, some err) := by
    unfold TransformErr
    refine TransformErrLoop_fail f S.toList Slice.nil k _ err (List.get?_eq_get hk) hfail ?_
    intro j y hj hy
    have hjl : j < S.toList.length := Nat.lt_trans hj hk
    rw [List.get?_eq_get hjl, Option.some.injEq] at hy
    subst hy
    exact hfirst j hj
  rw [h, hfail]
  exact ⟨rfl, rfl, rfl, rfl⟩

theorem TransformErr_first_failure_witness :
    TransformErr (Slice.mk [1, 2, -1, 3]) failOnNegative = (Slice.nil, some "negative")
    ∧ (TransformErr (Slice.mk [1, 2, -1, 3]) failOnNegative).1.isNil = true
    ∧ (TransformErr (Slice.mk [1, 2, -1, 3]) failOnNegative).1.len = 0
    ∧ (TransformErr (Slice.mk [1, 2, -1, 3]) failOnNegative).2 = (failOnNegative (-1)).2 :=
  TransformErr_first_failure (Slice.mk [1, 2, -1, 3]) failOnNegative 2 (by decide) "negative"
    (by decide) (by decide)

/-- C3: when index `k` is the first at which `f` fails, `TransformErr(S, f)`
calls `f` on exactly `S[0], ..., S[k]`, once each and in that order, and on no
later element: with `f` recording its calls, the call log after the run is the
prefix of `S` of length `k+1`, and the run returns what `TransformErr` returns. -/
theorem TransformErr_calls_stop_at_first_failure {E1 E2 ε : Type} (S : Slice E1)
    (f : E1 → E2 × Option ε) (k : Nat) (hk : k < S.len) (err : ε)
    (hfail : (f (S.toList.get ⟨k, hk⟩)).2 = some err)
    (hfirst : ∀ j (hj : j < k), (f (S.toList.get ⟨j, Nat.lt_trans hj hk⟩)).2 = none) :
    (TransformErrS S (recordCalls f) []).2 = S.toList.take (k + 1)
    ∧ (TransformErrS S (recordCalls f) []).2.length = k + 1
    ∧ (∀ j (hj : j ≤ k), (TransformErrS S (recordCalls f) []).2.get? j
          = some (S.toList.get ⟨j, Nat.lt_of_le_of_lt hj hk⟩))
    ∧ (TransformErrS S (recordCalls f) []).1 = TransformErr S f := by
  have h : (TransformErrS S (recordCalls f) []).2 = S.toList.take (k + 1) := by
    unfold TransformErrS
    rw [TransformErrLoopS_recordCalls_fail f S.toList Slice.nil [] k _ err
      (List.get?_eq_get hk) hfail ?_]
    · simp
    · intro j y hj hy
      have hjl : j < S.toList.length := Nat.lt_trans hj hk
      rw [List.get?_eq_get hjl, Option.some.injEq] at hy
      subst hy
      exact hfirst j hj
  have hlen : k + 1 ≤ S.toList.length := hk
  refine ⟨h, ?_, ?_, ?_⟩
  · rw [h, List.length_take]
    omega
  · intro j hj
    have hjl : j < S.toList.length := Nat.lt_of_le_of_lt hj hk
    rw [h, List.get?_eq_getElem?, List.getElem?_take_of_lt (Nat.lt_succ_of_le hj),
      List.getElem?_eq_getElem hjl]
    rfl
  · exact TransformErrLoopS_recordCalls_fst f S.toList Slice.nil []

theorem TransformErr_calls_stop_at_first_failure_witness :
    (TransformErrS (Slice.mk [1, 2, -1, 3]) (recordCalls failOnNegative) []).2
        = [1, 2, -1]
    ∧ 3 ∉ (TransformErrS (Slice.mk [1, 2, -1, 3]) (recordCalls failOnNegative) []).2 := by
  have h := TransformErr_calls_stop_at_first_failure (Slice.mk [1, 2, -1, 3]) failOnNegative 2
    (by decide) "negative" (by decide) (by decide)
  refine ⟨h.1, ?_⟩
  rw [h.1]
  decide

/-- C4: when `f` returns a nil error on every element of `S`,
`TransformErr(S, f)` returns a nil error and the slice `Transform(S, g)` for
`g` the value component of `f`: it has the length of `S` and holds the value of
`f(S[i])` at every index `i`. -/
theorem TransformErr_all_succeed {E1 E2 ε : Type} (S : Slice E1) (f : E1 → E2 × Option ε)
    (hok : ∀ i (hi : i < S.len), (f (S.toList.get ⟨i, hi⟩)).2 = none) :
    TransformErr S f = (Transform S (fun x => (f x).1), none)
    ∧ (TransformErr S f).2 = none
    ∧ (TransformErr S f).1.len = S.len
    ∧ (∀ i (hi : i < S.len),
        (TransformErr S f).1.index i = Except.ok (f (S.toList.get ⟨i, hi⟩)).1) := by
  have h : TransformErr S f = (Transform S (fun x => (f x).1), none) := by
    unfold TransformErr Transform
    apply TransformErrLoop_ok
    intro x hx
    obtain ⟨n, hn⟩ := List.get_of_mem hx
    rw [← hn]
    exact hok n.1 n.2
  refine ⟨h, by rw [h], by rw [h]; exact Transform_len S _, ?_⟩
  intro i hi
  rw [h]
  have hi2 : i < (Transform S (fun x => (f x).1)).len := by rw [Transform_len]; exact hi
  rw [Slice.index_eq_ok _ i hi2]
  congr 1
  simp [Transform_toList]

theorem TransformErr_all_succeed_witness :
    TransformErr (Slice.mk [1, 2, 3]) failOnNegative
        = (Transform (Slice.mk [1, 2, 3]) (fun x => (failOnNegative x).1), none)
    ∧ (TransformErr (Slice.mk [1, 2, 3]) failOnNegative).1 = Slice.mk [1, 2, 3] := by
  have h := TransformErr_all_succeed (Slice.mk [1, 2, 3]) failOnNegative (by decide)
  refine ⟨h.1, ?_⟩
  rw [h.1]
  decide

/-- C10: `Transform(S, f)` has the length of `S`, and its element at every
index `i < len(S)` is `f(S[i])`; `[1,2,3]` doubled is `[2,4,6]`. -/
theorem Transform_length_and_elements {E1 E2 : Type} (S : Slice E1) (f : E1 → E2) :
    (Transform S f).len = S.len
    ∧ (∀ i (hi : i < S.len), (Transform S f).index i = Except.ok (f (S.toList.get ⟨i, hi⟩)))
    ∧ Transform (Slice.mk [1, 2, 3]) (fun n : Nat => 2 * n) = Slice.mk [2, 4, 6] := by
  refine ⟨Transform_len S f, ?_, by decide⟩
  intro i hi
  have hi2 : i < (Transform S f).len := by rw [Transform_len]; exact hi
  rw [Slice.index_eq_ok _ i hi2]
  congr 1
  simp [Transform_toList]

/-! ## Filter -/

theorem FilterLoop_toList {E : Type} (f : E → Bool) (l : List E) :
    ∀ o : Slice E, (FilterLoop f l o).toList = o.toList ++ l.filter f := by
  induction l with
  | nil => intro o; simp [FilterLoop]
  | cons e rest ih =>
    intro o
    cases h : f e <;> simp [FilterLoop, h, ih]

theorem Filter_toList {E : Type} (i : Slice E) (f : E → Bool) :
    (Filter i f).toList = i.toList.filter f := by
  simp [Filter, FilterLoop_toList]

/-- C7: `Filter(S, P)` is the reference list filter of `S` by `P`: a
subsequence of `S` in the original order, holding every element that satisfies
`P` with its multiplicity and no other element, so every output element
satisfies `P` and the output is no longer than `S`; `[1,2,3,4]` filtered by
"is even" is `[2,4]`. -/
theorem Filter_is_list_filter {E : Type} (S : Slice E) (P : E → Bool) :
    (Filter S P).toList = S.toList.filter P
    ∧ List.Sublist (Filter S P).toList S.toList
    ∧ (∀ x, x ∈ (Filter S P).toList ↔ x ∈ S.toList ∧ P x = true)
    ∧ (∀ Q : E → Bool,
        (Filter S P).toList.countP Q = S.toList.countP (fun y => Q y && P y))
    ∧ (∀ x ∈ (Filter S P).toList, P x = true)
    ∧ (Filter S P).len ≤ S.len
    ∧ Filter (Slice.mk [1, 2, 3, 4]) (fun n : Nat => n % 2 == 0) = Slice.mk [2, 4] := by
  have h := Filter_toList S P
  refine ⟨h, ?_, ?_, ?_, ?_, ?_, by decide⟩
  · rw [h]; exact List.filter_sublist S.toList
  · intro x; rw [h, List.mem_filter]
  · intro Q
    rw [h, List.countP_filter]
  · intro x hx
    rw [h, List.mem_filter] at hx
    exact hx.2
  · unfold Slice.len
    rw [h]
    exact List.length_filter_le P S.toList

/-! ## Reduce -/

theorem ReduceLoop_eq_foldl {O E : Type} (f : O → E → O) (l : List E) :
    ∀ o : O, ReduceLoop f l o = l.foldl f o := by
  induction l with
  | nil => intro o; rfl
  | cons e rest ih => intro o; simp [ReduceLoop, ih]

/-- C9: `Reduce(S, f)` is the left fold of `f` over `S` in index order from the
zero value of `O`: it is the zero value on an empty slice, and on a slice with
a last element `x` it is `f` applied to the result for the elements before `x`
and to `x`; `[1,2,3]` summed is `6`. -/
theorem Reduce_is_left_fold {O E : Type} [ZeroValue O] (S : Slice E) (f : O → E → O) :
    Reduce S f = S.toList.foldl f ZeroValue.zero
    ∧ Reduce (Slice.nil : Slice E) f = ZeroValue.zero
    ∧ Reduce (Slice.mk ([] : List E)) f = ZeroValue.zero
    ∧ (∀ (l : List E) (x : E),
        Reduce (Slice.mk (l ++ [x])) f = f (Reduce (Slice.mk l) f) x)
    ∧ Reduce (Slice.mk [1, 2, 3]) (fun (a : Nat) (e : Nat) => a + e) = 6 := by
  refine ⟨ReduceLoop_eq_foldl f S.toList _, rfl, rfl, ?_, by decide⟩
  intro l x
  simp [Reduce, ReduceLoop_eq_foldl]

/-! ## Zip -/

theorem Slice.index_ok_iff {α : Type} (s : Slice α) (i : Nat) (v : α) :
    s.index i = Except.ok v ↔ s.toList[i]? = some v := by
  unfold Slice.index
  rw [List.get?_eq_getElem?]
  cases h : s.toList[i]? with
  | none => simp
  | some w => simp

theorem Slice.setIndex_ok {α : Type} (s : Slice α) (i : Nat) (v : α) (h : i < s.len) :
    s.setIndex i v = Except.ok (Slice.mk (s.toList.set i v)) := by
  unfold Slice.setIndex
  rw [if_pos h]

theorem Slice.len_make {α : Type} [ZeroValue α] (n : Nat) : (Slice.make n : Slice α).len = n := by
  simp [Slice.make]

theorem Slice.eq_mk_of_len_pos {α : Type} (s : Slice α) (h : 0 < s.len) :
    s = Slice.mk s.toList := by
  cases s with
  | nil => simp at h
  | mk l => rfl

/-- Inner loop of `Zip`: when row `idx` of `o` exists and has room for the
inputs still to be written from position `ii`, and every such input has an
element at `idx`, the loop returns `o` with row `idx` replaced by a row of the
same length that agrees with the old row before `ii` and holds the inputs'
elements at `idx` from `ii` on. -/
theorem ZipInner_ok {E : Type} (idx : Nat) (l : List (Slice E)) :
    ∀ (ii : Nat) (o : Slice (Slice E)) (row : Slice E),
      o.toList[idx]? = some row → ii + l.length ≤ row.len →
      (∀ s ∈ l, idx < s.len) →
      ∃ row1 : Slice E,
        ZipInner idx l ii o = Except.ok (Slice.mk (o.toList.set idx row1))
        ∧ row1.len = row.len
        ∧ (∀ j, j < ii → row1.toList[j]? = row.toList[j]?)
        ∧ (∀ j (hj : j < l.length), row1.toList[ii + j]? = (l.get ⟨j, hj⟩).toList[idx]?) := by
  induction l with
  | nil =>
    intro ii o row hrow _ _
    refine ⟨row, ?_, rfl, fun _ _ => rfl, fun j hj => absurd hj (Nat.not_lt_zero j)⟩
    have hlt : idx < o.toList.length := (List.getElem?_eq_some_iff.1 hrow).1
    have hset : o.toList.set idx row = o.toList := by
      apply List.ext_getElem?
      intro n
      rw [List.getElem?_set]
      by_cases hn : idx = n
      · subst hn; simp [hlt, hrow]
      · simp [hn]
    rw [ZipInner, hset, ← Slice.eq_mk_of_len_pos o (Nat.lt_of_le_of_lt (Nat.zero_le _) hlt)]
  | cons s rest ih =>
    intro ii o row hrow hlen hall
    have hlt : idx < o.toList.length := (List.getElem?_eq_some_iff.1 hrow).1
    have hs : idx < s.len := hall s (List.mem_cons_self s rest)
    have hii : ii < row.len := by simp only [List.length_cons] at hlen; omega
    have h1 : s.index idx = Except.ok (s.toList.get ⟨idx, hs⟩) := Slice.index_eq_ok s idx hs
    have h2 : o.index idx = Except.ok row := (Slice.index_ok_iff o idx row).2 hrow
    have h3 := Slice.setIndex_ok row ii (s.toList.get ⟨idx, hs⟩) hii
    have h4 := Slice.setIndex_ok o idx (Slice.mk (row.toList.set ii (s.toList.get ⟨idx, hs⟩))) hlt
    obtain ⟨row1, hrun, hlen1, hbefore, hfrom⟩ :=
      ih (ii + 1) (Slice.mk (o.toList.set idx (Slice.mk (row.toList.set ii (s.toList.get ⟨idx, hs⟩)))))
        (Slice.mk (row.toList.set ii (s.toList.get ⟨idx, hs⟩)))
        (by simp [hlt])
        (by simp only [List.length_cons, Slice.len] at hlen; simp [Slice.len]; omega)
        (fun t ht => hall t (List.mem_cons_of_mem s ht))
    refine ⟨row1, ?_, ?_, ?_, ?_⟩
    · rw [ZipInner, h1, h2]
      simp only [bind, Except.bind]
      rw [h3]
      simp only [h4]
      rw [hrun]
      simp
    · rw [hlen1]; simp [Slice.len]
    · intro j hj
      rw [hbefore j (Nat.lt_succ_of_lt hj)]
      simp only [Slice.toList_mk]
      rw [List.getElem?_set_ne (Nat.ne_of_gt hj)]
    · intro j hj
      cases j with
      | zero =>
        rw [Nat.add_zero, hbefore ii (Nat.lt_succ_self ii)]
        simp only [Slice.toList_mk, List.get_cons_zero]
        rw [List.getElem?_set_self (by simpa [Slice.len] using hii)]
        simp
      | succ j =>
        have hj2 : j < rest.length := Nat.lt_of_succ_lt_succ hj
        have := hfrom j hj2
        rw [show ii + (j + 1) = ii + 1 + j by omega, this]
        rfl

/-- Outer loop of `Zip`: run for the `n` indices from `idx` on a result `o` of
length `idx + n`, with every input at least that long, the loop returns a
result of the same length that agrees with `o` before `idx` and whose row at
each index `r` from `idx` on has one element per input, the input's element
at `r`. -/
theorem ZipOuter_ok {E : Type} [ZeroValue E] (i : Slice (Slice E)) (n : Nat) :
    ∀ (idx : Nat) (o : Slice (Slice E)),
      o.len = idx + n → (∀ s ∈ i.toList, idx + n ≤ s.len) →
      ∃ o1 : Slice (Slice E),
        ZipOuter i n idx o = Except.ok o1
        ∧ o1.len = o.len
        ∧ (∀ r, r < idx → o1.toList[r]? = o.toList[r]?)
        ∧ (∀ r, idx ≤ r → r < idx + n →
            ∃ row : Slice E, o1.toList[r]? = some row ∧ row.len = i.len
              ∧ ∀ j (hj : j < i.len), row.toList[j]? = (i.toList.get ⟨j, hj⟩).toList[r]?) := by
  induction n with
  | zero =>
    intro idx o _ _
    exact ⟨o, rfl, rfl, fun _ _ => rfl, fun r h1 h2 => absurd h2 (by omega)⟩
  | succ n ih =>
    intro idx o hlen hall
    have hlt : idx < o.len := by omega
    have hlt2 : idx < o.toList.length := hlt
    have h1 := Slice.setIndex_ok o idx (Slice.make i.len : Slice E) hlt
    obtain ⟨row1, hrun, hlen1, _, hfrom⟩ :=
      ZipInner_ok idx i.toList 0 (Slice.mk (o.toList.set idx (Slice.make i.len)))
        (Slice.make i.len) (by simp [hlt2])
        (by rw [Slice.len_make]; simp [Slice.len])
        (fun s hs => by have := hall s hs; omega)
    simp only [Slice.toList_mk, List.set_set] at hrun
    obtain ⟨o1, hrun2, hlen2, hbefore2, hfrom2⟩ :=
      ih (idx + 1) (Slice.mk (o.toList.set idx row1))
        (by simp only [Slice.len_mk, List.length_set]; unfold Slice.len at hlen; omega)
        (fun s hs => by have := hall s hs; omega)
    refine ⟨o1, ?_, ?_, ?_, ?_⟩
    · rw [ZipOuter, h1]
      simp only [bind, Except.bind]
      rw [hrun]
      simp only [hrun2]
    · rw [hlen2]; simp [Slice.len]
    · intro r hr
      rw [hbefore2 r (Nat.lt_succ_of_lt hr)]
      simp only [Slice.toList_mk]
      rw [List.getElem?_set_ne (Nat.ne_of_gt hr)]
    · intro r hr1 hr2
      by_cases hr : r = idx
      · subst hr
        refine ⟨row1, ?_, ?_, ?_⟩
        · rw [hbefore2 r (Nat.lt_succ_self r)]
          simp only [Slice.toList_mk]
          rw [List.getElem?_set_self hlt2]
        · rw [hlen1, Slice.len_make]
        · intro j hj
          have := hfrom j hj
          rw [Nat.zero_add] at this
          exact this
      · exact hfrom2 r (by omega) (by omega)

theorem foldl_min_le_init (l : List Nat) : ∀ m : Nat, l.foldl min m ≤ m := by
  induction l with
  | nil => intro m; exact Nat.le_refl m
  | cons a rest ih =>
    intro m
    exact Nat.le_trans (ih (min m a)) (Nat.min_le_left m a)

theorem foldl_min_le_mem (l : List Nat) : ∀ m : Nat, ∀ a ∈ l, l.foldl min m ≤ a := by
  induction l with
  | nil => intro m a ha; simp at ha
  | cons b rest ih =>
    intro m a ha
    rcases List.mem_cons.1 ha with rfl | ha
    · exact Nat.le_trans (foldl_min_le_init rest (min m a)) (Nat.min_le_right m a)
    · exact ih (min m b) a ha

theorem foldl_min_mem (l : List Nat) : ∀ m : Nat, l.foldl min m = m ∨ l.foldl min m ∈ l := by
  induction l with
  | nil => intro m; exact Or.inl rfl
  | cons b rest ih =>
    intro m
    rcases ih (min m b) with h | h
    · rw [List.foldl_cons, h]
      rcases Nat.le_total m b with hmb | hbm
      · left; exact Nat.min_eq_left hmb
      · right; rw [Nat.min_eq_right hbm]; exact List.mem_cons_self b rest
    · right; exact List.mem_cons_of_mem b h

/-- With at least one input, `slices.Min` of the input lengths returns a
length that is a lower bound of all input lengths and is the length of one of
the inputs. -/
theorem slicesMin_lengths {E : Type} (i : Slice (Slice E)) (h : 0 < i.len) :
    ∃ n : Nat, slicesMin (Transform i (fun s => s.len)) = Except.ok n
      ∧ (∀ s ∈ i.toList, n ≤ s.len) ∧ (∃ s ∈ i.toList, n = s.len) := by
  unfold slicesMin
  rw [Transform_toList]
  cases hl : i.toList with
  | nil => simp [Slice.len, hl] at h
  | cons a rest =>
    refine ⟨(rest.map (fun s : Slice E => s.len)).foldl min a.len, rfl, ?_, ?_⟩
    · intro s hs
      rcases List.mem_cons.1 hs with rfl | hs
      · exact foldl_min_le_init _ _
      · exact foldl_min_le_mem _ _ _ (List.mem_map_of_mem _ hs)
    · rcases foldl_min_mem (rest.map (fun s : Slice E => s.len)) a.len with hm | hm
      · exact ⟨a, List.mem_cons_self a rest, hm⟩
      · obtain ⟨s, hs, hsl⟩ := List.mem_map.1 hm
        exact ⟨s, List.mem_cons_of_mem a hs, hsl.symm⟩

/-- C5: with at least one input, `Zip` returns a result whose length is the
minimum of the input lengths (a lower bound of them that one input attains),
each of whose tuples has one element per input, and with
`output[i][j] == inputs[j][i]` for every `i` below that length and every `j`
below the number of inputs; `[1,2,3]` and `[10,20]` give `[[1,10],[2,20]]`. -/
theorem Zip_truncating_transpose {E : Type} [ZeroValue E] (inputs : Slice (Slice E))
    (h : 0 < inputs.len) :
    (∃ o : Slice (Slice E),
      Zip inputs = Except.ok o
      ∧ (∀ s ∈ inputs.toList, o.len ≤ s.len)
      ∧ (∃ s ∈ inputs.toList, o.len = s.len)
      ∧ (∀ idx, idx < o.len →
          ∃ row : Slice E, o.index idx = Except.ok row ∧ row.len = inputs.len
            ∧ ∀ j (hj : j < inputs.len),
                ∃ v : E, row.index j = Except.ok v
                  ∧ (inputs.toList.get ⟨j, hj⟩).index idx = Except.ok v))
    ∧ Zip (Slice.mk [Slice.mk [1, 2, 3], Slice.mk [10, 20]])
        = Except.ok (Slice.mk [Slice.mk [1, 10], Slice.mk [2, 20]]) := by
  refine ⟨?_, rfl⟩
  obtain ⟨n, hmin, hle, hatt⟩ := slicesMin_lengths inputs h
  obtain ⟨o, hrun, hlen, _, hrows⟩ :=
    ZipOuter_ok inputs n 0 (Slice.make n : Slice (Slice E))
      (by rw [Slice.len_make, Nat.zero_add])
      (fun s hs => by rw [Nat.zero_add]; exact hle s hs)
  rw [Slice.len_make] at hlen
  refine ⟨o, ?_, ?_, ?_, ?_⟩
  · unfold Zip
    rw [hmin]
    simp only [bind, Except.bind]
    rw [Slice.len_make]
    exact hrun
  · rw [hlen]; exact hle
  · rw [hlen]; exact hatt
  · intro idx hidx
    obtain ⟨row, hrow, hrowlen, hcells⟩ := hrows idx (Nat.zero_le idx) (by omega)
    refine ⟨row, (Slice.index_ok_iff o idx row).2 hrow, hrowlen, ?_⟩
    intro j hj
    have hcell := hcells j hj
    have hjrow : j < row.toList.length := by rw [← hrowlen] at hj; exact hj
    refine ⟨row.toList.get ⟨j, hjrow⟩, Slice.index_eq_ok row j hjrow, ?_⟩
    rw [Slice.index_ok_iff, ← hcell]
    exact List.getElem?_eq_getElem hjrow

theorem Zip_truncating_transpose_witness :
    0 < (Slice.mk [Slice.mk [1, 2, 3], Slice.mk [10, 20]] : Slice (Slice Nat)).len
    ∧ ∃ o : Slice (Slice Nat),
        Zip (Slice.mk [Slice.mk [1, 2, 3], Slice.mk [10, 20]]) = Except.ok o
        ∧ (∀ s ∈ (Slice.mk [Slice.mk [1, 2, 3], Slice.mk [10, 20]] : Slice (Slice Nat)).toList,
            o.len ≤ s.len) :=
  ⟨by decide,
    match (Zip_truncating_transpose (Slice.mk [Slice.mk [1, 2, 3], Slice.mk [10, 20]])
      (by decide)).1 with
    | ⟨o, hrun, hle, _⟩ => ⟨o, hrun, hle⟩⟩

/-- C6: `Zip` called with zero input slices does not return a result: it
panics in `slices.Min`, both for the nil argument slice of a call without
arguments and for an empty non-nil argument slice. -/
theorem Zip_zero_inputs_panics {E : Type} [ZeroValue E] :
    Zip (Slice.nil : Slice (Slice E)) = Except.error Panic.minEmptyList
    ∧ Zip (Slice.mk ([] : List (Slice E))) = Except.error Panic.minEmptyList :=
  ⟨rfl, rfl⟩

/-! ## Slices built by `append` from the nil slice -/

theorem Slice.canon_nil {α : Type} : (Slice.nil : Slice α).Canon := fun _ => rfl

theorem Slice.canon_append {α : Type} (s : Slice α) (e : α) : (s.append e).Canon := by
  intro h
  simp at h

theorem Slice.toList_appendAll {α : Type} (s es : Slice α) :
    (s.appendAll es).toList = s.toList ++ es.toList := by
  unfold Slice.appendAll
  cases h : es.toList with
  | nil => simp
  | cons x xs => simp

theorem Slice.canon_appendAll {α : Type} (s es : Slice α) (hs : s.Canon) :
    (s.appendAll es).Canon := by
  unfold Slice.appendAll
  cases h : es.toList with
  | nil => exact hs
  | cons x xs =>
    intro hnil
    simp at hnil

theorem Slice.eq_of_canon {α : Type} (a b : Slice α) (ha : a.Canon) (hb : b.Canon)
    (h : a.toList = b.toList) : a = b := by
  cases a with
  | nil =>
    have hbn : b.toList = [] := by rw [← h]; rfl
    exact (hb hbn).symm
  | mk l =>
    cases b with
    | nil =>
      have han : (Slice.mk l).toList = [] := by rw [h]; rfl
      exact ha han
    | mk m =>
      simp only [Slice.toList_mk] at h
      rw [h]

theorem FilterLoop_canon {E : Type} (f : E → Bool) (l : List E) :
    ∀ o : Slice E, o.Canon → (FilterLoop f l o).Canon := by
  induction l with
  | nil => intro o h; exact h
  | cons e rest ih =>
    intro o h
    rw [FilterLoop]
    split
    · exact ih _ (Slice.canon_append o e)
    · exact ih o h

theorem Filter_canon {E : Type} (i : Slice E) (f : E → Bool) : (Filter i f).Canon :=
  FilterLoop_canon f i.toList Slice.nil Slice.canon_nil

theorem TransformLoop_canon {E1 E2 : Type} (f : E1 → E2) (l : List E1) :
    ∀ o : Slice E2, o.Canon → (TransformLoop f l o).Canon := by
  induction l with
  | nil => intro o h; exact h
  | cons e rest ih => intro o _; exact ih _ (Slice.canon_append o (f e))

theorem Transform_canon {E1 E2 : Type} (i : Slice E1) (f : E1 → E2) : (Transform i f).Canon :=
  TransformLoop_canon f i.toList Slice.nil Slice.canon_nil

theorem FlattenLoop_canon {E : Type} (l : List (Slice E)) :
    ∀ o : Slice E, o.Canon → (FlattenLoop l o).Canon := by
  induction l with
  | nil => intro o h; exact h
  | cons e rest ih => intro o h; exact ih _ (Slice.canon_appendAll o e h)

theorem Flatten_canon {E : Type} (i : Slice (Slice E)) : (Flatten i).Canon :=
  FlattenLoop_canon i.toList Slice.nil Slice.canon_nil

/-! ## Flatten -/

theorem FlattenLoop_toList {E : Type} (l : List (Slice E)) :
    ∀ o : Slice E, (FlattenLoop l o).toList = o.toList ++ (l.map Slice.toList).flatten := by
  induction l with
  | nil => intro o; simp [FlattenLoop]
  | cons e rest ih =>
    intro o
    rw [FlattenLoop, ih, Slice.toList_appendAll]
    simp

theorem Flatten_toList {E : Type} (i : Slice (Slice E)) :
    (Flatten i).toList = (i.toList.map Slice.toList).flatten := by
  simp [Flatten, FlattenLoop_toList]

/-- C11: `Flatten(S)` is the concatenation of the inner slices of `S` in outer
order, each with its own element order: its elements are those of the first
inner slice followed by the flattening of the rest, nothing for an empty `S`;
`[[1,2],[],[3]]` gives `[1,2,3]`. -/
theorem Flatten_is_concatenation {E : Type} (S : Slice (Slice E)) :
    (Flatten S).toList = (S.toList.map Slice.toList).flatten
    ∧ (Flatten (Slice.mk ([] : List (Slice E)))).toList = []
    ∧ (∀ (s : Slice E) (l : List (Slice E)),
        (Flatten (Slice.mk (s :: l))).toList = s.toList ++ (Flatten (Slice.mk l)).toList)
    ∧ (∀ (l : List (Slice E)) (s : Slice E),
        (Flatten (Slice.mk (l ++ [s]))).toList = (Flatten (Slice.mk l)).toList ++ s.toList)
    ∧ Flatten (Slice.mk [Slice.mk [1, 2], Slice.mk [], Slice.mk [3]]) = Slice.mk [1, 2, 3] := by
  refine ⟨Flatten_toList S, rfl, ?_, ?_, by decide⟩
  · intro s l
    simp [Flatten_toList]
  · intro l s
    simp [Flatten_toList]

/-- C12: the length of `Flatten(S)` is the sum of the lengths of the inner
slices of `S`. -/
theorem Flatten_length_is_sum {E : Type} (S : Slice (Slice E)) :
    (Flatten S).len = (S.toList.map Slice.len).sum := by
  unfold Slice.len
  rw [Flatten_toList, List.length_flatten, List.map_map]
  rfl

/-! ## Last -/

/-- C13: for a non-empty `S`, `Last(S)` is the element `S[len(S)-1]`; for an
empty `S` it is the zero value of the element type, `0` for integers;
`[5,6,7]` gives `7`. -/
theorem Last_is_final_element_or_zero {E : Type} [ZeroValue E] (S : Slice E) :
    (0 < S.len → S.index (S.len - 1) = Except.ok (Last S))
    ∧ (∀ (l : List E) (x : E), Last (Slice.mk (l ++ [x])) = x)
    ∧ (S.len = 0 → Last S = ZeroValue.zero)
    ∧ Last (Slice.mk [5, 6, 7]) = (7 : Int)
    ∧ Last (Slice.mk ([] : List Int)) = 0
    ∧ Last (Slice.nil : Slice Int) = 0 := by
  refine ⟨?_, ?_, ?_, by decide, by decide, by decide⟩
  · intro h
    have hlt : S.len - 1 < S.len := Nat.sub_lt h Nat.one_pos
    rw [Slice.index_eq_ok S (S.len - 1) hlt]
    unfold Last
    rw [dif_pos h]
  · intro l x
    have h : 0 < (Slice.mk (l ++ [x])).len := by simp
    unfold Last
    rw [dif_pos h]
    simp [Slice.len]
  · intro h
    unfold Last
    rw [dif_neg (by omega)]

/-! ## Transform and Flatten -/

/-- C20: `Transform` distributes over `Flatten`: mapping `f` over the
flattening of `S` gives the same slice as flattening `S` after mapping `f`
over each inner slice. -/
theorem Transform_Flatten_distrib {E1 E2 : Type} (S : Slice (Slice E1)) (f : E1 → E2) :
    Transform (Flatten S) f = Flatten (Transform S (fun inner => Transform inner f)) := by
  apply Slice.eq_of_canon _ _ (Transform_canon _ _) (Flatten_canon _)
  rw [Transform_toList, Flatten_toList, Flatten_toList, Transform_toList, List.map_flatten,
    List.map_map, List.map_map]
  congr 1
  apply List.map_congr_left
  intro s _
  simp [Transform_toList]

/-! ## Zip: safety and transposition -/

/-- With at least one input, `Zip` returns a result whose length is the
minimum `n` computed by `slices.Min`, and whose row at each index `r < n` has
one element per input, the input's element at `r`. -/
theorem Zip_ok_rows {E : Type} [ZeroValue E] (i : Slice (Slice E)) (h : 0 < i.len) :
    ∃ (n : Nat) (o : Slice (Slice E)),
      slicesMin (Transform i (fun s => s.len)) = Except.ok n
      ∧ Zip i = Except.ok o
      ∧ o.len = n
      ∧ (∀ s ∈ i.toList, n ≤ s.len)
      ∧ (∃ s ∈ i.toList, n = s.len)
      ∧ (∀ r, r < n →
          ∃ row : Slice E, o.toList[r]? = some row ∧ row.len = i.len
            ∧ ∀ j (hj : j < i.len), row.toList[j]? = (i.toList.get ⟨j, hj⟩).toList[r]?) := by
  obtain ⟨n, hmin, hle, hatt⟩ := slicesMin_lengths i h
  obtain ⟨o, hrun, hlen, _, hrows⟩ :=
    ZipOuter_ok i n 0 (Slice.make n : Slice (Slice E))
      (by rw [Slice.len_make, Nat.zero_add])
      (fun s hs => by rw [Nat.zero_add]; exact hle s hs)
  rw [Slice.len_make] at hlen
  refine ⟨n, o, hmin, ?_, hlen, hle, hatt, ?_⟩
  · unfold Zip
    rw [hmin]
    simp only [bind, Except.bind]
    rw [Slice.len_make]
    exact hrun
  · intro r hr
    exact hrows r (Nat.zero_le r) (by omega)

theorem Slice.eq_of_len_pos {α : Type} (a b : Slice α) (ha : 0 < a.len)
    (h : a.toList = b.toList) : a = b := by
  have hb : 0 < b.len := by unfold Slice.len at ha ⊢; rw [← h]; exact ha
  rw [Slice.eq_mk_of_len_pos a ha, Slice.eq_mk_of_len_pos b hb, h]

/-- C17: with at least one input slice, of any lengths, `Zip` returns without
a panic: `slices.Min` returns the minimum length, every read `is[idx]` is in
bounds, and every row `o[idx]` exists with one position per input, so every
write `o[idx][ii]` is in bounds. -/
theorem Zip_safe_with_inputs {E : Type} [ZeroValue E] (inputs : Slice (Slice E))
    (h : 0 < inputs.len) :
    (∃ n : Nat, slicesMin (Transform inputs (fun s => s.len)) = Except.ok n)
    ∧ (∀ p : Panic, Zip inputs ≠ Except.error p)
    ∧ (∃ o : Slice (Slice E), Zip inputs = Except.ok o
        ∧ (∀ idx, idx < o.len → ∀ s ∈ inputs.toList, ∃ v : E, s.index idx = Except.ok v)
        ∧ (∀ idx, idx < o.len → ∃ row : Slice E, o.index idx = Except.ok row
            ∧ ∀ ii, ii < inputs.len → ∃ v : E, row.index ii = Except.ok v)) := by
  obtain ⟨n, o, hmin, hrun, hlen, hle, _, hrows⟩ := Zip_ok_rows inputs h
  refine ⟨⟨n, hmin⟩, ?_, o, hrun, ?_, ?_⟩
  · intro p hp
    rw [hrun] at hp
    cases hp
  · intro idx hidx s hs
    have hs2 : idx < s.len := Nat.lt_of_lt_of_le (hlen ▸ hidx) (hle s hs)
    exact ⟨_, Slice.index_eq_ok s idx hs2⟩
  · intro idx hidx
    obtain ⟨row, hrow, hrowlen, _⟩ := hrows idx (hlen ▸ hidx)
    refine ⟨row, (Slice.index_ok_iff o idx row).2 hrow, ?_⟩
    intro ii hii
    have hii2 : ii < row.len := by rw [hrowlen]; exact hii
    exact ⟨_, Slice.index_eq_ok row ii hii2⟩

theorem Zip_safe_with_inputs_witness :
    0 < (Slice.mk [Slice.mk [1, 2, 3], Slice.nil] : Slice (Slice Nat)).len
    ∧ ∀ p : Panic, Zip (Slice.mk [Slice.mk [1, 2, 3], (Slice.nil : Slice Nat)]) ≠ Except.error p :=
  ⟨by decide,
    (Zip_safe_with_inputs (Slice.mk [Slice.mk [1, 2, 3], (Slice.nil : Slice Nat)])
      (by decide)).2.1⟩

/-- C18: on `k ≥ 1` input slices that all have the same length `n ≥ 1`, `Zip`
is a transposition that undoes itself: `Zip` returns tuples, and `Zip` applied
to those tuples returns the original inputs. -/
theorem Zip_Zip_rectangular {E : Type} [ZeroValue E] (inputs : Slice (Slice E)) (n : Nat)
    (hk : 0 < inputs.len) (hn : 0 < n) (hrect : ∀ s ∈ inputs.toList, s.len = n) :
    ∃ o : Slice (Slice E), Zip inputs = Except.ok o ∧ Zip o = Except.ok inputs := by
  obtain ⟨m, o, _, hrun, hlen, _, ⟨s, hs, hatt⟩, hrows⟩ := Zip_ok_rows inputs hk
  have hm : m = n := by rw [hatt]; exact hrect s hs
  subst hm
  have ho : 0 < o.len := by rw [hlen]; exact hn
  obtain ⟨m2, o2, _, hrun2, hlen2, _, ⟨row0, hrow0, hatt2⟩, hrows2⟩ := Zip_ok_rows o ho
  have hrowlen : ∀ row ∈ o.toList, row.len = inputs.len := by
    intro row hrow
    obtain ⟨r, hr, hget⟩ := List.getElem_of_mem hrow
    obtain ⟨row1, hrow1, hlen1, _⟩ := hrows r (by rw [← hlen]; exact hr)
    rw [List.getElem?_eq_getElem hr, hget, Option.some.injEq] at hrow1
    rw [hrow1]
    exact hlen1
  have hm2 : m2 = inputs.len := by rw [hatt2]; exact hrowlen row0 hrow0
  subst hm2
  refine ⟨o, hrun, ?_⟩
  rw [hrun2]
  congr 1
  apply Slice.eq_of_len_pos _ _ (by rw [hlen2]; exact hk)
  apply List.ext_getElem?
  intro j
  by_cases hj : j < inputs.len
  · obtain ⟨row2, hrow2, hrow2len, hcells2⟩ := hrows2 j hj
    have hjl : j < inputs.toList.length := hj
    rw [hrow2, List.getElem?_eq_getElem hjl, Option.some.injEq]
    have hin : (inputs.toList.get ⟨j, hj⟩).len = m :=
      hrect _ (List.get_mem inputs.toList j hj)
    apply Slice.eq_of_len_pos _ _ (by rw [hrow2len]; exact ho)
    apply List.ext_getElem?
    intro r
    by_cases hr : r < m
    · have hro : r < o.len := by rw [hlen]; exact hr
      have h1 := hcells2 r hro
      obtain ⟨row, hrow, _, hcells⟩ := hrows r hr
      have hrol : r < o.toList.length := hro
      rw [List.getElem?_eq_getElem hrol, Option.some.injEq] at hrow
      rw [h1, List.get_eq_getElem, hrow]
      exact hcells j hj
    · have ha : row2.toList.length ≤ r := by
        have : row2.toList.length = m := by
          have := hrow2len
          unfold Slice.len at this
          rw [this]; exact hlen
        omega
      have hb : (inputs.toList[j]).toList.length ≤ r := by
        have : (inputs.toList[j]).toList.length = m := hin
        omega
      rw [List.getElem?_eq_none ha, List.getElem?_eq_none hb]
  · have ha : o2.toList.length ≤ j := by
      have : o2.toList.length = inputs.len := hlen2
      omega
    have hb : inputs.toList.length ≤ j := by
      have : inputs.toList.length = inputs.len := rfl
      omega
    rw [List.getElem?_eq_none ha, List.getElem?_eq_none hb]

theorem Zip_Zip_rectangular_witness :
    0 < (Slice.mk [Slice.mk [1, 2], Slice.mk [10, 20], Slice.mk [5, 6]] : Slice (Slice Nat)).len
    ∧ ∃ o : Slice (Slice Nat),
        Zip (Slice.mk [Slice.mk [1, 2], Slice.mk [10, 20], Slice.mk [5, 6]]) = Except.ok o
        ∧ Zip o = Except.ok (Slice.mk [Slice.mk [1, 2], Slice.mk [10, 20], Slice.mk [5, 6]]) :=
  ⟨by decide,
    Zip_Zip_rectangular (Slice.mk [Slice.mk [1, 2], Slice.mk [10, 20], Slice.mk [5, 6]]) 2
      (by decide) (by decide) (by decide)⟩

/-! ## Dedupe -/

theorem entriesFind_isSome {K V : Type} [Comparable K] (m : List (K × V)) (x : K) :
    (entriesFind m x).isSome = m.any (fun p => Comparable.eq p.1 x) := by
  unfold entriesFind
  induction m with
  | nil => rfl
  | cons p rest ih =>
    cases h : Comparable.eq p.1 x with
    | true => simp [List.find?_cons, h]
    | false =>
      rw [List.find?_cons_of_neg _ (by simp [h]), ih]
      simp [h]

theorem entriesPut_of_not_found {K V : Type} [Comparable K] (m : List (K × V)) (k : K) (v : V)
    (h : m.any (fun p => Comparable.eq p.1 k) = false) : entriesPut m k v = (k, v) :: m := by
  unfold entriesPut
  congr 1
  rw [List.filter_eq_self]
  intro p hp
  cases hpk : Comparable.eq p.1 k with
  | false => rfl
  | true =>
    have : m.any (fun p => Comparable.eq p.1 k) = true :=
      List.any_eq_true.2 ⟨p, hp, hpk⟩
    rw [h] at this
    cases this

/-- Loop invariant of `Dedupe`: when no element left panics as a map key and
the map finds exactly the keys that are `==` to an emitted value, the loop
returns and appends `firstOcc` of the elements left. -/
theorem DedupeLoop_ok {E : Type} [Comparable E] (l : List E) :
    ∀ (m : List (E × Unit)) (o : Slice E),
      (∀ x ∈ l, Comparable.hashable x = true) →
      (∀ x, m.any (fun p => Comparable.eq p.1 x) = o.toList.any (fun s => Comparable.eq s x)) →
      ∃ r : Slice E, DedupeLoop l m o = Except.ok r
        ∧ r.toList = o.toList ++ firstOcc l o.toList
        ∧ (o.Canon → r.Canon) := by
  induction l with
  | nil =>
    intro m o _ _
    exact ⟨o, rfl, by simp [firstOcc], fun h => h⟩
  | cons e rest ih =>
    intro m o hhash hinv
    have he : Comparable.hashable e = true := hhash e (List.mem_cons_self e rest)
    have hrest : ∀ x ∈ rest, Comparable.hashable x = true :=
      fun x hx => hhash x (List.mem_cons_of_mem e hx)
    have hfind : (entriesFind m e).isSome = o.toList.any (fun s => Comparable.eq s e) := by
      rw [entriesFind_isSome, hinv e]
    cases hseen : o.toList.any (fun s => Comparable.eq s e) with
    | true =>
      obtain ⟨r, hrun, hlist, hcanon⟩ := ih m o hrest hinv
      refine ⟨r, ?_, ?_, hcanon⟩
      · rw [DedupeLoop, entriesGet, if_pos he]
        simp only [bind, Except.bind]
        rw [hfind, hseen, if_pos rfl]
        exact hrun
      · rw [hlist, firstOcc, hseen, if_pos rfl]
    | false =>
      have hnot : m.any (fun p => Comparable.eq p.1 e) = false := by rw [hinv e, hseen]
      obtain ⟨r, hrun, hlist, hcanon⟩ := ih ((e, ()) :: m) (o.append e) hrest (by
        intro x
        simp only [List.any_cons, Slice.toList_append, List.any_append, List.any_nil,
          Bool.or_false]
        rw [hinv x, Bool.or_comm])
      refine ⟨r, ?_, ?_, fun _ => hcanon (Slice.canon_append o e)⟩
      · rw [DedupeLoop, entriesGet, if_pos he]
        simp only [bind, Except.bind]
        rw [hfind, hseen, if_neg (by simp), entriesSet, if_pos he,
          entriesPut_of_not_found m e () hnot]
        exact hrun
      · rw [hlist, firstOcc, hseen, if_neg (by simp)]
        simp

/-- When no element of `i` panics as a map key, `Dedupe` returns a slice that
holds `firstOcc` of the elements and is nil when it is empty. -/
theorem Dedupe_ok {E : Type} [Comparable E] (i : Slice E)
    (hhash : ∀ x ∈ i.toList, Comparable.hashable x = true) :
    ∃ r : Slice E, Dedupe i = Except.ok r ∧ r.toList = firstOcc i.toList [] ∧ r.Canon := by
  obtain ⟨r, hrun, hlist, hcanon⟩ :=
    DedupeLoop_ok i.toList [] Slice.nil hhash (fun x => by simp)
  exact ⟨r, hrun, by simpa using hlist, hcanon Slice.canon_nil⟩

theorem firstOcc_subset {E : Type} [Comparable E] (l : List E) :
    ∀ seen : List E, ∀ x ∈ firstOcc l seen, x ∈ l := by
  induction l with
  | nil => intro seen x hx; simp [firstOcc] at hx
  | cons e rest ih =>
    intro seen x hx
    rw [firstOcc] at hx
    split at hx
    · exact List.mem_cons_of_mem e (ih seen x hx)
    · rcases List.mem_cons.1 hx with rfl | hx
      · exact List.mem_cons_self _ _
      · exact List.mem_cons_of_mem e (ih _ x hx)

theorem firstOcc_idem {E : Type} [Comparable E] (l : List E) :
    ∀ seen : List E, firstOcc (firstOcc l seen) seen = firstOcc l seen := by
  induction l with
  | nil => intro seen; rfl
  | cons e rest ih =>
    intro seen
    cases hseen : seen.any (fun s => Comparable.eq s e) with
    | true =>
      rw [firstOcc, hseen, if_pos rfl]
      exact ih seen
    | false =>
      rw [firstOcc, hseen, if_neg (by simp), firstOcc, hseen, if_neg (by simp), ih]

theorem firstOcc_eq_firstOccMem {E : Type} [DecidableEq E] [Comparable E] (l : List E) :
    ∀ seen : List E,
      (∀ a ∈ seen ++ l, ∀ b ∈ seen ++ l, (Comparable.eq a b = true ↔ a = b)) →
      firstOcc l seen = firstOccMem l seen := by
  induction l with
  | nil => intro seen _; rfl
  | cons e rest ih =>
    intro seen hlaw
    have hiff : seen.any (fun s => Comparable.eq s e) = true ↔ e ∈ seen := by
      rw [List.any_eq_true]
      constructor
      · rintro ⟨s, hs, hse⟩
        have := (hlaw s (List.mem_append_left _ hs) e
          (List.mem_append_right _ (List.mem_cons_self e rest))).1 hse
        rw [← this]
        exact hs
      · intro hmem
        exact ⟨e, hmem, (hlaw e (List.mem_append_left _ hmem) e
          (List.mem_append_left _ hmem)).2 rfl⟩
    have hlaw1 : ∀ a ∈ seen ++ rest, ∀ b ∈ seen ++ rest, (Comparable.eq a b = true ↔ a = b) := by
      intro a ha b hb
      refine hlaw a ?_ b ?_
      · rcases List.mem_append.1 ha with h | h
        · exact List.mem_append_left _ h
        · exact List.mem_append_right _ (List.mem_cons_of_mem e h)
      · rcases List.mem_append.1 hb with h | h
        · exact List.mem_append_left _ h
        · exact List.mem_append_right _ (List.mem_cons_of_mem e h)
    have hlaw2 : ∀ a ∈ (seen ++ [e]) ++ rest, ∀ b ∈ (seen ++ [e]) ++ rest,
        (Comparable.eq a b = true ↔ a = b) := by
      intro a ha b hb
      refine hlaw a ?_ b ?_
      · simpa using ha
      · simpa using hb
    by_cases hmem : e ∈ seen
    · rw [firstOcc, if_pos (hiff.2 hmem), firstOccMem, if_pos hmem]
      exact ih seen hlaw1
    · rw [firstOcc, if_neg (fun h => hmem (hiff.1 h)), firstOccMem, if_neg hmem,
        ih (seen ++ [e]) hlaw2]

theorem firstOccMem_snoc {E : Type} [DecidableEq E] (l : List E) (e : E) :
    ∀ seen : List E,
      firstOccMem (l ++ [e]) seen
        = firstOccMem l seen ++ (if e ∈ seen ∨ e ∈ l then [] else [e]) := by
  induction l with
  | nil =>
    intro seen
    by_cases h : e ∈ seen <;> simp [firstOccMem, h]
  | cons a rest ih =>
    intro seen
    by_cases ha : a ∈ seen
    · rw [List.cons_append, firstOccMem, if_pos ha, ih seen, firstOccMem, if_pos ha]
      by_cases hs : e ∈ seen
      · simp [hs]
      · have hne : e ≠ a := fun h => hs (h ▸ ha)
        simp [hs, hne]
    · rw [List.cons_append, firstOccMem, if_neg ha, ih (seen ++ [a]), firstOccMem, if_neg ha]
      by_cases hs : e ∈ seen
      · simp [hs]
      · by_cases hea : e = a
        · simp [hea]
        · simp [hs, hea]

theorem firstOccMem_nil_snoc {E : Type} [DecidableEq E] (l : List E) (e : E) :
    firstOccMem (l ++ [e]) []
      = if e ∈ l then firstOccMem l [] else firstOccMem l [] ++ [e] := by
  rw [firstOccMem_snoc]
  by_cases h : e ∈ l <;> simp [h]

theorem firstOccMem_mem {E : Type} [DecidableEq E] (l : List E) :
    ∀ x, x ∈ firstOccMem l [] ↔ x ∈ l := by
  induction l using List.reverseRecOn with
  | nil => intro x; simp [firstOccMem]
  | append_singleton l e ih =>
    intro x
    rw [firstOccMem_nil_snoc]
    by_cases h : e ∈ l
    · simp only [h, if_true, ih, List.mem_append, List.mem_singleton]
      constructor
      · exact Or.inl
      · rintro (hx | rfl)
        · exact hx
        · exact h
    · simp [h, ih]

theorem firstOccMem_nodup {E : Type} [DecidableEq E] (l : List E) :
    (firstOccMem l []).Nodup := by
  induction l using List.reverseRecOn with
  | nil => simp [firstOccMem]
  | append_singleton l e ih =>
    rw [firstOccMem_nil_snoc]
    by_cases h : e ∈ l
    · simpa [h] using ih
    · simp only [h, if_false]
      rw [List.nodup_append]
      refine ⟨ih, List.nodup_singleton e, ?_⟩
      intro a ha hb
      rw [List.mem_singleton] at hb
      subst hb
      exact h ((firstOccMem_mem l a).1 ha)

theorem firstOccMem_order {E : Type} [DecidableEq E] (l : List E) :
    ∀ x y, x ∈ firstOccMem l [] → y ∈ firstOccMem l [] → x ≠ y →
      (List.indexOf x (firstOccMem l []) < List.indexOf y (firstOccMem l [])
        ↔ List.indexOf x l < List.indexOf y l) := by
  induction l using List.reverseRecOn with
  | nil => intro x y hx; simp [firstOccMem] at hx
  | append_singleton l e ih =>
    intro x y
    rw [firstOccMem_nil_snoc]
    by_cases h : e ∈ l
    · simp only [h, if_true]
      intro hx hy hxy
      have hx1 := (firstOccMem_mem l x).1 hx
      have hy1 := (firstOccMem_mem l y).1 hy
      rw [List.indexOf_append_of_mem hx1, List.indexOf_append_of_mem hy1]
      exact ih x y hx hy hxy
    · simp only [h, if_false, List.mem_append, List.mem_singleton]
      have hne : e ∉ firstOccMem l [] := fun hm => h ((firstOccMem_mem l e).1 hm)
      rintro (hx | rfl) (hy | rfl) hxy
      · have hx1 := (firstOccMem_mem l x).1 hx
        have hy1 := (firstOccMem_mem l y).1 hy
        rw [List.indexOf_append_of_mem hx, List.indexOf_append_of_mem hy,
          List.indexOf_append_of_mem hx1, List.indexOf_append_of_mem hy1]
        exact ih x y hx hy hxy
      · have hx1 := (firstOccMem_mem l x).1 hx
        rw [List.indexOf_append_of_mem hx, List.indexOf_append_of_not_mem hne,
          List.indexOf_append_of_mem hx1, List.indexOf_append_of_not_mem h]
        have h1 := List.indexOf_lt_length.2 hx
        have h2 := List.indexOf_lt_length.2 hx1
        constructor <;> intro _ <;> omega
      · have hy1 := (firstOccMem_mem l y).1 hy
        rw [List.indexOf_append_of_mem hy, List.indexOf_append_of_not_mem hne,
          List.indexOf_append_of_mem hy1, List.indexOf_append_of_not_mem h]
        have h1 := List.indexOf_lt_length.2 hy
        have h2 := List.indexOf_lt_length.2 hy1
        constructor <;> intro _ <;> omega
      · exact absurd rfl hxy


/-- C1, as stated for every slice of comparable elements, fails: on
`[NaN, 1, NaN, 1]` the output holds NaN twice, on `[1, []int{1}, 1]` held in
`any` there is no output because hashing the slice panics, and on `[0, -0]`
the output `[0]` does not hold the value `-0` of the input. -/
theorem Dedupe_fails_on_nan_unhashable_and_zeros :
    (¬ ∃ o : Slice F64,
        Dedupe (Slice.mk [F64.nan, F64.num 1, F64.nan, F64.num 1]) = Except.ok o
          ∧ o.toList.Nodup)
    ∧ (¬ ∃ o : Slice AnyVal,
        Dedupe (Slice.mk [AnyVal.int 1, AnyVal.ints [1], AnyVal.int 1]) = Except.ok o)
    ∧ (¬ ∃ o : Slice F64,
        Dedupe (Slice.mk [F64.num 0, F64.negZero]) = Except.ok o
          ∧ ∀ x, x ∈ o.toList ↔ x ∈ (Slice.mk [F64.num 0, F64.negZero]).toList) := by
  refine ⟨?_, ?_, ?_⟩
  · rintro ⟨o, hrun, hnd⟩
    have h : Dedupe (Slice.mk [F64.nan, F64.num 1, F64.nan, F64.num 1])
        = Except.ok (Slice.mk [F64.nan, F64.num 1, F64.nan]) := rfl
    rw [h] at hrun
    cases hrun
    revert hnd
    decide
  · rintro ⟨o, hrun⟩
    have h : Dedupe (Slice.mk [AnyVal.int 1, AnyVal.ints [1], AnyVal.int 1])
        = Except.error Panic.unhashableKey := rfl
    rw [h] at hrun
    cases hrun
  · rintro ⟨o, hrun, hmem⟩
    have h : Dedupe (Slice.mk [F64.num 0, F64.negZero]) = Except.ok (Slice.mk [F64.num 0]) := rfl
    rw [h] at hrun
    cases hrun
    have := (hmem F64.negZero).2 (by decide)
    revert this
    decide

/-- C1, amended: for every slice `S` of comparable elements none of which
panics as a map key and on which `==` holds exactly between identical values,
`Dedupe(S)` returns a slice that contains no value twice, contains a value if
and only if `S` does, and orders any two distinct values of the output as
their first occurrences in `S` are ordered; `[1,2,1,3,2]` gives `[1,2,3]`. -/
theorem Dedupe_distinct_first_occurrence {E : Type} [DecidableEq E] [Comparable E] (S : Slice E)
    (hhash : ∀ x ∈ S.toList, Comparable.hashable x = true)
    (heq : ∀ x ∈ S.toList, ∀ y ∈ S.toList, (Comparable.eq x y = true ↔ x = y)) :
    (∃ o : Slice E, Dedupe S = Except.ok o
      ∧ o.toList.Nodup
      ∧ (∀ x, x ∈ o.toList ↔ x ∈ S.toList)
      ∧ (∀ x y, x ∈ o.toList → y ∈ o.toList → x ≠ y →
          (List.indexOf x o.toList < List.indexOf y o.toList
            ↔ List.indexOf x S.toList < List.indexOf y S.toList)))
    ∧ Dedupe (Slice.mk [1, 2, 1, 3, 2] : Slice Nat) = Except.ok (Slice.mk [1, 2, 3]) := by
  refine ⟨?_, rfl⟩
  obtain ⟨o, hrun, hlist, _⟩ := Dedupe_ok S hhash
  have hmemlist : o.toList = firstOccMem S.toList [] := by
    rw [hlist]
    exact firstOcc_eq_firstOccMem S.toList [] (by simpa using heq)
  refine ⟨o, hrun, ?_, ?_, ?_⟩
  · rw [hmemlist]; exact firstOccMem_nodup S.toList
  · rw [hmemlist]; exact firstOccMem_mem S.toList
  · rw [hmemlist]; exact firstOccMem_order S.toList

theorem Dedupe_distinct_first_occurrence_witness :
    ∃ o : Slice Nat, Dedupe (Slice.mk [1, 2, 1, 3, 2]) = Except.ok o
      ∧ o.toList.Nodup
      ∧ (∀ x, x ∈ o.toList ↔ x ∈ (Slice.mk [1, 2, 1, 3, 2] : Slice Nat).toList) :=
  match (Dedupe_distinct_first_occurrence (Slice.mk [1, 2, 1, 3, 2] : Slice Nat)
      (by decide) (by decide)).1 with
  | ⟨o, hrun, hnd, hmem, _⟩ => ⟨o, hrun, hnd, hmem⟩

/-- C14, as stated for every slice of comparable elements, fails: on
`[1, []int{1}, 1]` held in `any`, `Dedupe(S)` panics, so neither side of the
equation has a value. -/
theorem Dedupe_idempotent_fails_on_unhashable :
    ¬ ∃ o : Slice AnyVal,
        Dedupe (Slice.mk [AnyVal.int 1, AnyVal.ints [1], AnyVal.int 1]) = Except.ok o
          ∧ Dedupe o = Except.ok o := by
  rintro ⟨o, hrun, _⟩
  have h : Dedupe (Slice.mk [AnyVal.int 1, AnyVal.ints [1], AnyVal.int 1])
      = Except.error Panic.unhashableKey := rfl
  rw [h] at hrun
  cases hrun

/-- C14, amended: `Dedupe` is idempotent on every slice `S` of comparable
elements none of which panics as a map key: `Dedupe(S)` returns a slice, and
`Dedupe` of that slice returns the same slice. -/
theorem Dedupe_idempotent {E : Type} [Comparable E] (S : Slice E)
    (hhash : ∀ x ∈ S.toList, Comparable.hashable x = true) :
    ∃ o : Slice E, Dedupe S = Except.ok o ∧ Dedupe o = Except.ok o := by
  obtain ⟨o, hrun, hlist, hcanon⟩ := Dedupe_ok S hhash
  have hhash2 : ∀ x ∈ o.toList, Comparable.hashable x = true := by
    intro x hx
    rw [hlist] at hx
    exact hhash x (firstOcc_subset S.toList [] x hx)
  obtain ⟨o2, hrun2, hlist2, hcanon2⟩ := Dedupe_ok o hhash2
  refine ⟨o, hrun, ?_⟩
  rw [hrun2]
  congr 1
  apply Slice.eq_of_canon _ _ hcanon2 hcanon
  rw [hlist2, hlist]
  exact firstOcc_idem S.toList []

theorem Dedupe_idempotent_witness :
    ∃ o : Slice F64,
      Dedupe (Slice.mk [F64.nan, F64.num 1, F64.nan, F64.num 1]) = Except.ok o
        ∧ Dedupe o = Except.ok o :=
  Dedupe_idempotent (Slice.mk [F64.nan, F64.num 1, F64.nan, F64.num 1]) (by decide)

/-- C15, as stated, fails: for the empty non-nil slice of integers the output
of `Dedupe` is not a non-nil slice of length 0. -/
theorem Dedupe_empty_not_non_nil :
    ¬ ∃ o : Slice Int, Dedupe (Slice.mk ([] : List Int)) = Except.ok o
        ∧ o.isNil = false ∧ o.len = 0 := by
  rintro ⟨o, hrun, hnil, _⟩
  have h : Dedupe (Slice.mk ([] : List Int)) = Except.ok Slice.nil := rfl
  rw [h] at hrun
  cases hrun
  cases hnil

/-- C15, amended: `Dedupe` applied to an empty input slice returns an empty
output, of length 0, and that output is the nil slice. -/
theorem Dedupe_empty_is_nil {E : Type} [Comparable E] (S : Slice E) (h : S.len = 0) :
    Dedupe S = Except.ok Slice.nil
    ∧ ∃ o : Slice E, Dedupe S = Except.ok o ∧ o.len = 0 ∧ o.isNil = true ∧ o = Slice.nil := by
  have hl : S.toList = [] := List.length_eq_zero.1 h
  have hd : Dedupe S = Except.ok Slice.nil := by
    unfold Dedupe
    rw [hl]
    rfl
  exact ⟨hd, Slice.nil, hd, rfl, rfl, rfl⟩

theorem Dedupe_empty_is_nil_witness :
    (Slice.mk ([] : List Int)).len = 0
    ∧ Dedupe (Slice.mk ([] : List Int)) = Except.ok Slice.nil :=
  ⟨rfl, (Dedupe_empty_is_nil (Slice.mk ([] : List Int)) rfl).1⟩

theorem firstOcc_filter {E : Type} [Comparable E] (P : E → Bool) (l : List E) :
    ∀ seen : List E,
      (∀ a ∈ seen ++ l, ∀ b ∈ seen ++ l, Comparable.eq a b = true → P a = P b) →
      firstOcc (l.filter P) (seen.filter P) = (firstOcc l seen).filter P := by
  induction l with
  | nil => intro seen _; rfl
  | cons e rest ih =>
    intro seen hP
    have hP1 : ∀ a ∈ seen ++ rest, ∀ b ∈ seen ++ rest, Comparable.eq a b = true → P a = P b := by
      intro a ha b hb
      refine hP a ?_ b ?_
      · rcases List.mem_append.1 ha with h | h
        · exact List.mem_append_left _ h
        · exact List.mem_append_right _ (List.mem_cons_of_mem e h)
      · rcases List.mem_append.1 hb with h | h
        · exact List.mem_append_left _ h
        · exact List.mem_append_right _ (List.mem_cons_of_mem e h)
    have hP2 : ∀ a ∈ (seen ++ [e]) ++ rest, ∀ b ∈ (seen ++ [e]) ++ rest,
        Comparable.eq a b = true → P a = P b := by
      intro a ha b hb
      refine hP a ?_ b ?_
      · simpa using ha
      · simpa using hb
    cases hPe : P e with
    | true =>
      have hany : (seen.filter P).any (fun s => Comparable.eq s e)
          = seen.any (fun s => Comparable.eq s e) := by
        rw [Bool.eq_iff_iff, List.any_eq_true, List.any_eq_true]
        constructor
        · rintro ⟨s, hs, hse⟩
          exact ⟨s, (List.mem_filter.1 hs).1, hse⟩
        · rintro ⟨s, hs, hse⟩
          have hPs : P s = P e := hP s (List.mem_append_left _ hs) e
            (List.mem_append_right _ (List.mem_cons_self e rest)) hse
          exact ⟨s, List.mem_filter.2 ⟨hs, by rw [hPs, hPe]⟩, hse⟩
      rw [List.filter_cons_of_pos hPe, firstOcc, firstOcc, hany]
      cases hseen : seen.any (fun s => Comparable.eq s e) with
      | true =>
        rw [if_pos rfl, if_pos rfl]
        exact ih seen hP1
      | false =>
        rw [if_neg (by simp), if_neg (by simp), List.filter_cons_of_pos hPe,
          ← ih (seen ++ [e]) hP2]
        simp [List.filter_append, hPe]
    | false =>
      rw [List.filter_cons_of_neg (by simp [hPe]), firstOcc]
      cases hseen : seen.any (fun s => Comparable.eq s e) with
      | true =>
        rw [if_pos rfl]
        exact ih seen hP1
      | false =>
        rw [if_neg (by simp), List.filter_cons_of_neg (by simp [hPe]), ← ih (seen ++ [e]) hP2]
        simp [List.filter_append, hPe]

/-- C19, as stated for every slice of comparable elements and every
predicate, fails: on `[[]int{1}]` held in `any` with the predicate that is
always false the left side is the nil slice while `Dedupe(S)` panics, and on
`[0, -0]` with the predicate "has the sign bit" the left side is `[-0]` while
the right side is empty. -/
theorem Dedupe_Filter_commute_fails :
    (¬ ∃ o : Slice AnyVal, Dedupe (Slice.mk [AnyVal.ints [1]]) = Except.ok o
        ∧ Dedupe (Filter (Slice.mk [AnyVal.ints [1]]) (fun _ => false))
            = Except.ok (Filter o (fun _ => false)))
    ∧ Dedupe (Filter (Slice.mk [AnyVal.ints [1]]) (fun _ => false)) = Except.ok Slice.nil
    ∧ (¬ ∃ o : Slice F64, Dedupe (Slice.mk [F64.num 0, F64.negZero]) = Except.ok o
        ∧ Dedupe (Filter (Slice.mk [F64.num 0, F64.negZero]) F64.signbit)
            = Except.ok (Filter o F64.signbit)) := by
  refine ⟨?_, rfl, ?_⟩
  · rintro ⟨o, hrun, _⟩
    have h : Dedupe (Slice.mk [AnyVal.ints [1]]) = Except.error Panic.unhashableKey := rfl
    rw [h] at hrun
    cases hrun
  · rintro ⟨o, hrun, hcomm⟩
    have h : Dedupe (Slice.mk [F64.num 0, F64.negZero]) = Except.ok (Slice.mk [F64.num 0]) := rfl
    rw [h] at hrun
    cases hrun
    have h2 : Dedupe (Filter (Slice.mk [F64.num 0, F64.negZero]) F64.signbit)
        = Except.ok (Slice.mk [F64.negZero]) := rfl
    have h3 : Filter (Slice.mk [F64.num 0]) F64.signbit = Slice.nil := rfl
    rw [h2, h3] at hcomm
    cases hcomm

/-- C19, amended: for every slice `S` of comparable elements none of which
panics as a map key, and every total predicate `P` that gives the same answer
on elements of `S` that are `==` to each other, `Dedupe(S)` returns a slice and
`Dedupe(Filter(S, P))` returns the same slice as `Filter(Dedupe(S), P)`. -/
theorem Dedupe_Filter_commute {E : Type} [Comparable E] (S : Slice E) (P : E → Bool)
    (hhash : ∀ x ∈ S.toList, Comparable.hashable x = true)
    (hP : ∀ x ∈ S.toList, ∀ y ∈ S.toList, Comparable.eq x y = true → P x = P y) :
    ∃ o : Slice E, Dedupe S = Except.ok o
      ∧ Dedupe (Filter S P) = Except.ok (Filter o P) := by
  obtain ⟨o, hrun, hlist, _⟩ := Dedupe_ok S hhash
  have hhash2 : ∀ x ∈ (Filter S P).toList, Comparable.hashable x = true := by
    intro x hx
    rw [Filter_toList] at hx
    exact hhash x (List.mem_filter.1 hx).1
  obtain ⟨r, hrun2, hlist2, hcanon2⟩ := Dedupe_ok (Filter S P) hhash2
  refine ⟨o, hrun, ?_⟩
  rw [hrun2]
  congr 1
  apply Slice.eq_of_canon _ _ hcanon2 (Filter_canon _ _)
  rw [hlist2, Filter_toList, Filter_toList, hlist]
  exact firstOcc_filter P S.toList [] (by simpa using hP)

theorem Dedupe_Filter_commute_witness :
    ∃ o : Slice F64, Dedupe (Slice.mk [F64.nan, F64.num 1, F64.num 2, F64.num 1]) = Except.ok o
      ∧ Dedupe (Filter (Slice.mk [F64.nan, F64.num 1, F64.num 2, F64.num 1])
            (fun x => decide (x ≠ F64.num 2)))
          = Except.ok (Filter o (fun x => decide (x ≠ F64.num 2))) :=
  Dedupe_Filter_commute (Slice.mk [F64.nan, F64.num 1, F64.num 2, F64.num 1])
    (fun x => decide (x ≠ F64.num 2)) (by decide) (by decide)

/-! ## ToMap -/

theorem ToMapLoop_ok {K V E : Type} [Comparable K] (f : E → K × V) (l : List E) :
    ∀ o : List (K × V), (∀ e ∈ l, Comparable.hashable (f e).1 = true) →
      ToMapLoop f l o = Except.ok (toMapEntries f l o) := by
  induction l with
  | nil => intro o _; rfl
  | cons e rest ih =>
    intro o h
    have he : Comparable.hashable (f e).1 = true := h e (List.mem_cons_self e rest)
    rw [ToMapLoop, entriesSet, if_pos he]
    simp only [bind, Except.bind]
    rw [ih _ (fun y hy => h y (List.mem_cons_of_mem e hy)), toMapEntries]

theorem ToMap_ok {K V E : Type} [Comparable K] (S : Slice E) (f : E → K × V)
    (h : ∀ e ∈ S.toList, Comparable.hashable (f e).1 = true) :
    ToMap S f = Except.ok (GoMap.mk (toMapEntries f S.toList [])) := by
  unfold ToMap
  rw [ToMapLoop_ok f S.toList [] h]
  rfl

theorem GoMap.get_mk_ok {K V : Type} [Comparable K] (m : List (K × V)) (k : K)
    (h : Comparable.hashable k = true) :
    (GoMap.mk m).get k = Except.ok (entriesFind m k) := by
  unfold GoMap.get entriesGet
  rw [if_pos h]
  rfl

theorem entriesFind_entriesPut_self {K V : Type} [Comparable K] (m : List (K × V)) (k : K)
    (v : V) (h : Comparable.eq k k = true) : entriesFind (entriesPut m k v) k = some v := by
  unfold entriesFind entriesPut
  simp [List.find?_cons, h]

theorem entriesFind_entriesPut_ne {K V : Type} [Comparable K] (m : List (K × V)) (k x : K)
    (v : V) (hkx : Comparable.eq k x = false)
    (hm : ∀ p ∈ m, Comparable.eq p.1 k = true → Comparable.eq p.1 x = false) :
    entriesFind (entriesPut m k v) x = entriesFind m x := by
  unfold entriesFind entriesPut
  rw [List.find?_cons_of_neg _ (by simp [hkx])]
  congr 1
  induction m with
  | nil => rfl
  | cons p rest ih =>
    have hrest : ∀ q ∈ rest, Comparable.eq q.1 k = true → Comparable.eq q.1 x = false :=
      fun q hq => hm q (List.mem_cons_of_mem p hq)
    cases hpk : Comparable.eq p.1 k with
    | true =>
      have hpx : Comparable.eq p.1 x = false := hm p (List.mem_cons_self p rest) hpk
      rw [List.filter_cons_of_neg (by simp [hpk]), List.find?_cons_of_neg _ (by simp [hpx])]
      exact ih hrest
    | false =>
      rw [List.filter_cons_of_pos (by simp [hpk])]
      cases hpx : Comparable.eq p.1 x with
      | true =>
        simp only [List.find?_cons, hpx]
      | false =>
        rw [List.find?_cons_of_neg _ (by simp [hpx]), List.find?_cons_of_neg _ (by simp [hpx])]
        exact ih hrest

theorem entriesPut_keys {K V : Type} [Comparable K] (m : List (K × V)) (k : K) (v : V) :
    ∀ p ∈ entriesPut m k v, p.1 = k ∨ p ∈ m := by
  intro p hp
  unfold entriesPut at hp
  rcases List.mem_cons.1 hp with rfl | hp
  · exact Or.inl rfl
  · exact Or.inr (List.mem_filter.1 hp).1

theorem toMapEntries_append {K V E : Type} [Comparable K] (f : E → K × V) (a b : List E) :
    ∀ o : List (K × V), toMapEntries f (a ++ b) o = toMapEntries f b (toMapEntries f a o) := by
  induction a with
  | nil => intro o; rfl
  | cons e rest ih => intro o; simp [toMapEntries, ih]

theorem toMapEntries_keys {K V E : Type} [Comparable K] (f : E → K × V) (l : List E) :
    ∀ o : List (K × V), ∀ p ∈ toMapEntries f l o, p ∈ o ∨ ∃ e ∈ l, p.1 = (f e).1 := by
  induction l with
  | nil => intro o p hp; exact Or.inl hp
  | cons e rest ih =>
    intro o p hp
    rw [toMapEntries] at hp
    rcases ih _ p hp with h | ⟨y, hy, hpy⟩
    · rcases entriesPut_keys o _ _ p h with h1 | h1
      · exact Or.inr ⟨e, List.mem_cons_self e rest, h1⟩
      · exact Or.inl h1
    · exact Or.inr ⟨y, List.mem_cons_of_mem e hy, hpy⟩

theorem toMapEntries_find_of_no_key {K V E : Type} [Comparable K] (f : E → K × V) (x : K)
    (l : List E) :
    ∀ o : List (K × V),
      (∀ e ∈ l, Comparable.eq (f e).1 x = false) →
      (∀ p ∈ o, ∀ e ∈ l, Comparable.eq p.1 (f e).1 = true → Comparable.eq p.1 x = false) →
      (∀ a ∈ l, ∀ e ∈ l, Comparable.eq (f a).1 (f e).1 = true →
        Comparable.eq (f a).1 x = false) →
      entriesFind (toMapEntries f l o) x = entriesFind o x := by
  induction l with
  | nil => intro o _ _ _; rfl
  | cons e rest ih =>
    intro o hl hst hll
    have hmem : e ∈ e :: rest := List.mem_cons_self e rest
    rw [toMapEntries, ih (entriesPut o (f e).1 (f e).2)
      (fun y hy => hl y (List.mem_cons_of_mem e hy))
      (by
        intro p hp y hy hpy
        rcases entriesPut_keys o _ _ p hp with h1 | h1
        · rw [h1] at hpy ⊢
          exact hll e hmem y (List.mem_cons_of_mem e hy) hpy
        · exact hst p h1 y (List.mem_cons_of_mem e hy) hpy)
      (fun a ha y hy => hll a (List.mem_cons_of_mem e ha) y (List.mem_cons_of_mem e hy))]
    exact entriesFind_entriesPut_ne o (f e).1 x (f e).2 (hl e hmem)
      (fun p hp hpk => hst p hp e hmem hpk)

theorem toMapEntries_keys_nodup {K V E : Type} [Comparable K] (f : E → K × V) (l : List E) :
    ∀ o : List (K × V),
      (∀ e ∈ l, Comparable.eq (f e).1 (f e).1 = true) →
      (o.map Prod.fst).Nodup → ((toMapEntries f l o).map Prod.fst).Nodup := by
  induction l with
  | nil => intro o _ h; exact h
  | cons e rest ih =>
    intro o hrefl h
    rw [toMapEntries]
    apply ih _ (fun y hy => hrefl y (List.mem_cons_of_mem e hy))
    unfold entriesPut
    rw [List.map_cons, List.nodup_cons]
    constructor
    · intro hmem
      obtain ⟨p, hp, hpk⟩ := List.mem_map.1 hmem
      have hne := (List.mem_filter.1 hp).2
      simp only at hpk
      rw [hpk, hrefl e (List.mem_cons_self e rest)] at hne
      cases hne
    · exact h.sublist ((List.filter_sublist o).map Prod.fst)

/-- Lookup of the key derived by the element at the head of `e :: post` after
the loop of `ToMap` has run over `pre ++ e :: post`, when no later element
derives that key and `==` on the derived keys holds exactly between identical
keys: the value derived by `e`. -/
theorem toMapEntries_find_last {K V E : Type} [Comparable K] (f : E → K × V)
    (pre post : List E) (e : E)
    (heq : ∀ a ∈ pre ++ e :: post, ∀ b ∈ pre ++ e :: post,
      (Comparable.eq (f a).1 (f b).1 = true ↔ (f a).1 = (f b).1))
    (hlater : ∀ y ∈ post, (f y).1 ≠ (f e).1) :
    entriesFind (toMapEntries f (pre ++ e :: post) []) (f e).1 = some (f e).2 := by
  have he : e ∈ pre ++ e :: post := List.mem_append_right _ (List.mem_cons_self e post)
  have hpost : ∀ y ∈ post, y ∈ pre ++ e :: post :=
    fun y hy => List.mem_append_right _ (List.mem_cons_of_mem e hy)
  have hpre : ∀ z ∈ pre, z ∈ pre ++ e :: post := fun z hz => List.mem_append_left _ hz
  have hl : ∀ y ∈ post, Comparable.eq (f y).1 (f e).1 = false := by
    intro y hy
    cases hc : Comparable.eq (f y).1 (f e).1 with
    | false => rfl
    | true => exact absurd ((heq y (hpost y hy) e he).1 hc) (hlater y hy)
  rw [toMapEntries_append, toMapEntries,
    toMapEntries_find_of_no_key f (f e).1 post _ hl ?_ (fun a ha _ _ _ => hl a ha)]
  · exact entriesFind_entriesPut_self _ _ _ ((heq e he e he).2 rfl)
  · intro p hp y hy hpy
    have hkey : ∃ z ∈ pre ++ e :: post, p.1 = (f z).1 := by
      rcases entriesPut_keys _ _ _ p hp with h1 | h1
      · exact ⟨e, he, h1⟩
      · rcases toMapEntries_keys f pre [] p h1 with h2 | ⟨z, hz, hpz⟩
        · cases h2
        · exact ⟨z, hpre z hz, hpz⟩
    obtain ⟨z, hz, hpz⟩ := hkey
    rw [hpz] at hpy ⊢
    rw [(heq z hz y (hpost y hy)).1 hpy]
    exact hl y hy

/-- C8, as stated for every key type, fails: with the key NaN derived from
both `1` and `2` the map does not hold NaN with the value of the last element,
with a key that is an `any` holding a slice there is no map because hashing
the key panics, and with the keys `0` and `-0` derived from `1` and `2` the map
holds for `0` the value of `2`, which is not an element with derived key `0`. -/
theorem ToMap_fails_on_nan_unhashable_and_zeros :
    (¬ ∃ m : GoMap F64 Nat, ToMap (Slice.mk [1, 2]) (fun n : Nat => (F64.nan, n)) = Except.ok m
        ∧ m.get F64.nan = Except.ok (some 2))
    ∧ (¬ ∃ m : GoMap AnyVal Nat,
        ToMap (Slice.mk [1, 2]) (fun n : Nat => (AnyVal.ints [1], n)) = Except.ok m)
    ∧ (¬ ∃ m : GoMap F64 Nat,
        ToMap (Slice.mk [1, 2])
            (fun n : Nat => (if n = 1 then F64.num 0 else F64.negZero, n)) = Except.ok m
          ∧ m.get (F64.num 0) = Except.ok (some 1)) := by
  refine ⟨?_, ?_, ?_⟩
  · rintro ⟨m, hrun, hget⟩
    have h : ToMap (Slice.mk [1, 2]) (fun n : Nat => (F64.nan, n))
        = Except.ok (GoMap.mk [(F64.nan, 2), (F64.nan, 1)]) := rfl
    rw [h] at hrun
    cases hrun
    have h2 : (GoMap.mk [(F64.nan, 2), (F64.nan, 1)] : GoMap F64 Nat).get F64.nan
        = Except.ok none := rfl
    rw [h2] at hget
    cases hget
  · rintro ⟨m, hrun⟩
    have h : ToMap (Slice.mk [1, 2]) (fun n : Nat => (AnyVal.ints [1], n))
        = Except.error Panic.unhashableKey := rfl
    rw [h] at hrun
    cases hrun
  · rintro ⟨m, hrun, hget⟩
    have h : ToMap (Slice.mk [1, 2])
        (fun n : Nat => (if n = 1 then F64.num 0 else F64.negZero, n))
        = Except.ok (GoMap.mk [(F64.negZero, 2)]) := rfl
    rw [h] at hrun
    cases hrun
    have h2 : (GoMap.mk [(F64.negZero, 2)] : GoMap F64 Nat).get (F64.num 0)
        = Except.ok (some 2) := rfl
    rw [h2] at hget
    cases hget

/-- C8, amended: for every slice `S` and function `f` such that no derived key
panics as a map key and `==` on the derived keys holds exactly between
identical keys, `ToMap(S, f)` returns a map in which every key occurs once
and, for every key `k`: if an element of `S` has derived key `k`, the map holds
`k` with the value derived from the last such element (later duplicate keys
overwrite earlier ones); if no element has derived key `k`, and `k` can be
hashed and is `==` to no derived key, then `k` is absent;
`[("a",1),("a",2)]` with the identity mapping gives the one entry `"a": 2`. -/
theorem ToMap_last_key_wins {K V E : Type} [Comparable K] (S : Slice E) (f : E → K × V)
    (hhash : ∀ e ∈ S.toList, Comparable.hashable (f e).1 = true)
    (heq : ∀ a ∈ S.toList, ∀ b ∈ S.toList,
      (Comparable.eq (f a).1 (f b).1 = true ↔ (f a).1 = (f b).1)) :
    (∃ m : GoMap K V, ToMap S f = Except.ok m
      ∧ (m.entries.map Prod.fst).Nodup
      ∧ (∀ k, Comparable.hashable k = true →
          (∀ e ∈ S.toList, (Comparable.eq (f e).1 k = true ↔ (f e).1 = k)) →
          (∀ e ∈ S.toList, (f e).1 ≠ k) → m.get k = Except.ok none)
      ∧ (∀ k idx (h : idx < S.len), (f (S.toList.get ⟨idx, h⟩)).1 = k →
          (∀ j (hj : j < S.len), idx < j → (f (S.toList.get ⟨j, hj⟩)).1 ≠ k) →
          m.get k = Except.ok (some (f (S.toList.get ⟨idx, h⟩)).2)))
    ∧ ToMap (Slice.mk [("a", 1), ("a", 2)]) (fun p : String × Nat => p)
        = Except.ok (GoMap.mk [("a", 2)])
    ∧ (GoMap.mk [("a", 2)] : GoMap String Nat).get "a" = Except.ok (some 2)
    ∧ (GoMap.mk [("a", 2)] : GoMap String Nat).len = 1 := by
  refine ⟨⟨GoMap.mk (toMapEntries f S.toList []), ToMap_ok S f hhash, ?_, ?_, ?_⟩,
    by rfl, by rfl, by rfl⟩
  · exact toMapEntries_keys_nodup f S.toList [] (fun e he => (heq e he e he).2 rfl)
      List.nodup_nil
  · intro k hk hprobe hne
    have hl : ∀ e ∈ S.toList, Comparable.eq (f e).1 k = false := by
      intro e he
      cases hc : Comparable.eq (f e).1 k with
      | false => rfl
      | true => exact absurd ((hprobe e he).1 hc) (hne e he)
    rw [GoMap.get_mk_ok _ k hk,
      toMapEntries_find_of_no_key f k S.toList [] hl (fun p hp => by cases hp)
        (fun a ha _ _ _ => hl a ha)]
    rfl
  · intro k idx h hkey hlater
    have hmem : S.toList.get ⟨idx, h⟩ ∈ S.toList := List.get_mem S.toList idx h
    have hk : Comparable.hashable k = true := by rw [← hkey]; exact hhash _ hmem
    have hsplit :
        S.toList.take idx ++ S.toList.get ⟨idx, h⟩ :: S.toList.drop (idx + 1) = S.toList := by
      rw [List.get_eq_getElem, ← List.drop_eq_getElem_cons, List.take_append_drop]
    have hlast := toMapEntries_find_last f (S.toList.take idx) (S.toList.drop (idx + 1))
      (S.toList.get ⟨idx, h⟩) (by rw [hsplit]; exact heq) (by
        intro e he
        obtain ⟨i, hi, rfl⟩ := List.mem_drop_iff_getElem.1 he
        rw [hkey]
        have hi2 : idx + 1 + i < S.len := by unfold Slice.len; omega
        exact hlater (idx + 1 + i) hi2 (by omega))
    rw [hsplit, hkey] at hlast
    rw [GoMap.get_mk_ok _ k hk, hlast]

theorem ToMap_last_key_wins_witness :
    ∃ m : GoMap String Nat,
      ToMap (Slice.mk [("a", 1), ("b", 5), ("a", 2)]) (fun p : String × Nat => p) = Except.ok m
        ∧ m.get "a" = Except.ok (some 2) :=
  match (ToMap_last_key_wins (Slice.mk [("a", 1), ("b", 5), ("a", 2)])
      (fun p : String × Nat => p) (by decide) (by decide)).1 with
  | ⟨m, hrun, _, _, hlast⟩ => ⟨m, hrun, hlast "a" 2 (by decide) rfl (by decide)⟩

/-- C16: `ToMap` applied to an empty input slice, with any mapping function,
returns a non-nil map with zero entries. -/
theorem ToMap_empty_is_non_nil_empty {K V E : Type} [Comparable K] (S : Slice E)
    (f : E → K × V) (h : S.len = 0) :
    ToMap S f = Except.ok (GoMap.mk [])
    ∧ ∃ m : GoMap K V, ToMap S f = Except.ok m ∧ m.isNil = false ∧ m.len = 0 := by
  have hl : S.toList = [] := List.length_eq_zero.1 h
  have hm : ToMap S f = Except.ok (GoMap.mk []) := by
    unfold ToMap
    rw [hl]
    rfl
  exact ⟨hm, GoMap.mk [], hm, rfl, rfl⟩

theorem ToMap_empty_is_non_nil_empty_witness :
    (Slice.nil : Slice (String × Nat)).len = 0
    ∧ ToMap (Slice.nil : Slice (String × Nat)) (fun p => p) = Except.ok (GoMap.mk []) :=
  ⟨rfl, (ToMap_empty_is_non_nil_empty (Slice.nil : Slice (String × Nat)) (fun p => p) rfl).1⟩

end Slices
